import Mathlib

set_option maxHeartbeats 4000000
set_option maxRecDepth 20000

/-!
Shallow embedding of the match-3 board engine in `src/src/game.ts`.

The board is an 8×8 grid of `Gem` records (stored coordinates plus a nullable
type drawn from a 5-element alphabet).  `Math.random()`-based draws are
modelled by an explicit stream `RNG : Nat → GemType`; each call of
`getRandomGemType` consumes the head of the stream.  Presentation-only pieces
of the source (canvas drawing, the `selected` flag, the `renderY` animation
field, `animateFalling`) are omitted: they never influence the board, the
score, or any of the verified properties.  Loops of the source are rendered
as structurally recursive functions on explicit counters/fuel so that every
definition is executable by the kernel.
-/

/-- GRID_SIZE from game.ts. -/
def GRID_SIZE : Nat := 8

/-- GemType = 0 | 1 | 2 | 3 | 4. -/
abbrev GemType := Fin 5

/-- A gem: stored coordinates and a nullable type (`interface Gem`). -/
structure Gem where
  x : Nat
  y : Nat
  type : Option GemType
deriving DecidableEq, Repr

abbrev Idx := Fin 8

/-- The board, addressed as board[y][x] (row-major, as in the source). -/
abbrev Board := Mathlib.Vector (Mathlib.Vector Gem 8) 8

/-- Stream of successive `getRandomGemType` results. -/
abbrev RNG := Nat → GemType

/-- The stream after one draw has been consumed. -/
def tl (s : RNG) : RNG := fun n => s (n + 1)

/-- Full random gem generator (`getRandomGemType`): one draw from the stream. -/
def getRandomGemType (s : RNG) : GemType × RNG := (s 0, tl s)

/-- Read board[y][x]; all reads performed by the source are in bounds, and an
out-of-bounds read is given a harmless null cell. -/
def gemAt (b : Board) (y x : Nat) : Gem :=
  if h : y < 8 ∧ x < 8 then (b.get ⟨y, h.1⟩).get ⟨x, h.2⟩
  else { x := x, y := y, type := none }

/-- The type stored at board[y][x] (`none` off the grid). -/
def typeAt (b : Board) (y x : Nat) : Option GemType := (gemAt b y x).type

/-- Write board[y][x] := g (a no-op off the grid). -/
def setG (b : Board) (y x : Nat) (g : Gem) : Board :=
  if h : y < 8 ∧ x < 8 then b.set ⟨y, h.1⟩ ((b.get ⟨y, h.1⟩).set ⟨x, h.2⟩ g) else b

/-- The acceptance condition of `getSafeRandomGem`: the candidate draw must
neither complete a run of 3 to the left nor upwards. -/
def gemOK (b : Board) (x y : Nat) (g : GemType) : Prop :=
  ¬(2 ≤ x ∧ typeAt b y (x-1) = some g ∧ typeAt b y (x-2) = some g) ∧
  ¬(2 ≤ y ∧ typeAt b (y-1) x = some g ∧ typeAt b (y-2) x = some g)

instance (b : Board) (x y : Nat) (g : GemType) : Decidable (gemOK b x y g) := by
  unfold gemOK; infer_instance

/-- The rejection loop of `getSafeRandomGem`, with explicit fuel.  In the
source the left-neighbour checks read the partially built `currentRow` and the
up-neighbour checks read already completed rows of `board`; here both read the
partially built board, which contains exactly those cells. -/
def getSafeRandomGem (b : Board) (x y : Nat) : Nat → RNG → Option (GemType × RNG)
  | 0, _ => none
  | fuel+1, s =>
    let d := getRandomGemType s
    if gemOK b x y d.1 then some (d.1, d.2)
    else getSafeRandomGem b x y fuel d.2

/-- The board every cell of which is still unassigned (board = [] being built). -/
def emptyBoard : Board :=
  Mathlib.Vector.ofFn (fun y : Idx => Mathlib.Vector.ofFn
    (fun x : Idx => { x := x.val, y := y.val, type := none }))

/-- Inner loop of `initBoard`: assign cells (y, x), (y, x+1), ... (`rem` of them). -/
def initCells (y fuel : Nat) : Nat → Nat → RNG → Board → Option (Board × RNG)
  | _, 0, s, b => some (b, s)
  | x, rem+1, s, b =>
    match getSafeRandomGem b x y fuel s with
    | none => none
    | some (g, s') => initCells y fuel (x+1) rem s' (setG b y x { x := x, y := y, type := some g })

/-- Outer loop of `initBoard`: build rows y, y+1, ... (`rem` of them). -/
def initRows (fuel : Nat) : Nat → Nat → RNG → Board → Option (Board × RNG)
  | _, 0, s, b => some (b, s)
  | y, rem+1, s, b =>
    match initCells y fuel 0 8 s b with
    | none => none
    | some (b', s') => initRows fuel (y+1) rem s' b'

/-- `initBoard`: fill all 8×8 cells in raster order with safe random gems.
`none` when the given per-cell fuel does not suffice for the rejection loops. -/
def initBoard (s : RNG) (fuel : Nat) : Option Board :=
  (initRows fuel 0 8 s emptyBoard).map Prod.fst

/-! ### findMatches -/

/-- The `matched` boolean grid of `findMatches`. -/
abbrev Marks := Idx → Idx → Bool

def getM (m : Marks) (y x : Nat) : Bool :=
  if h : y < 8 ∧ x < 8 then m ⟨y, h.1⟩ ⟨x, h.2⟩ else false

def setM (m : Marks) (y x : Nat) : Marks :=
  fun y' x' => if y'.val = y ∧ x'.val = x then true else m y' x'

/-- A horizontal or vertical line of the board, as a function of one index. -/
abbrev Line := Nat → Option GemType

def rowGet (b : Board) (y : Nat) : Line := fun i => typeAt b y i

def colGet (b : Board) (x : Nat) : Line := fun i => typeAt b i x

/-- The run-extension loop of `findMatches`:
`while (k < 8 && line k = type) { mark k; k++ }`. -/
def runExtend (mark : Nat → Marks → Marks) (get : Line) (t : GemType) :
    Nat → Nat → Marks → Marks
  | _, 0, m => m
  | k, f+1, m =>
    if k < 8 ∧ get k = some t then runExtend mark get t (k+1) f (mark k m) else m

/-- One scan direction of `findMatches`: slide a 3-window along a line
(window starts 0..5); on a hit mark the three cells and extend the run. -/
def scanLine (mark : Nat → Marks → Marks) (get : Line) : Nat → Nat → Marks → Marks
  | _, 0, m => m
  | i, f+1, m =>
    let m' :=
      match get i with
      | some t =>
        if get (i+1) = some t ∧ get (i+2) = some t then
          runExtend mark get t (i+3) 8 (mark (i+2) (mark (i+1) (mark i m)))
        else m
      | none => m
    scanLine mark get (i+1) f m'

/-- Horizontal scan of `findMatches`, over rows y, y+1, ... -/
def hScanRows (b : Board) : Nat → Nat → Marks → Marks
  | _, 0, m => m
  | y, f+1, m => hScanRows b (y+1) f (scanLine (fun i mm => setM mm y i) (rowGet b y) 0 6 m)

/-- Vertical scan of `findMatches`, over columns x, x+1, ... -/
def vScanCols (b : Board) : Nat → Nat → Marks → Marks
  | _, 0, m => m
  | x, f+1, m => vScanCols b (x+1) f (scanLine (fun i mm => setM mm i x) (colGet b x) 0 6 m)

/-- The complete `matched` grid of `findMatches`. -/
def allMarks (b : Board) : Marks := vScanCols b 0 8 (hScanRows b 0 8 (fun _ _ => false))

/-- Result collection of `findMatches`, inner loop over x. -/
def collectRow (b : Board) (m : Marks) (y : Nat) : Nat → Nat → List Gem
  | _, 0 => []
  | x, f+1 => (if getM m y x then [gemAt b y x] else []) ++ collectRow b m y (x+1) f

/-- Result collection of `findMatches`, outer loop over y. -/
def collectRows (b : Board) (m : Marks) : Nat → Nat → List Gem
  | _, 0 => []
  | y, f+1 => collectRow b m y 0 8 ++ collectRows b m (y+1) f

/-- `findMatches`: all gems on some horizontal or vertical run of length ≥ 3. -/
def findMatches (b : Board) : List Gem := collectRows b (allMarks b) 0 8

/-- The positions (y, x) collected by `findMatches`, inner loop. -/
def posRow (m : Marks) (y : Nat) : Nat → Nat → List (Nat × Nat)
  | _, 0 => []
  | x, f+1 => (if getM m y x then [(y, x)] else []) ++ posRow m y (x+1) f

/-- The positions (y, x) collected by `findMatches`, outer loop. -/
def posRows (m : Marks) : Nat → Nat → List (Nat × Nat)
  | _, 0 => []
  | y, f+1 => posRow m y 0 8 ++ posRows m (y+1) f

/-- The set of matched cell positions of `findMatches`, as a list. -/
def matchedPositions (b : Board) : List (Nat × Nat) := posRows (allMarks b) 0 8

/-! ### hasChainOfThree -/

/-- Backward counting loop of `hasChainOfThree`
(`for i = y-1; i >= 0; i--`, counting while the type matches). -/
def cBack (get : Line) (t : GemType) : Nat → Nat
  | 0 => 0
  | y+1 => if get y = some t then cBack get t y + 1 else 0

/-- Forward counting loop of `hasChainOfThree`
(`for i = y+1; i < 8; i++`, counting while the type matches). -/
def cFwd (get : Line) (t : GemType) : Nat → Nat → Nat
  | _, 0 => 0
  | i, f+1 => if i < 8 ∧ get i = some t then cFwd get t (i+1) f + 1 else 0

/-- `hasChainOfThree(x, y, type)`: does a run of ≥ 3 cells of `type` pass
through (x, y) along its column or row? -/
def hasChainOfThree (b : Board) (x y : Nat) (ty : Option GemType) : Bool :=
  match ty with
  | none => false
  | some t =>
    decide (3 ≤ 1 + cBack (colGet b x) t y + cFwd (colGet b x) t (y+1) 8) ||
    decide (3 ≤ 1 + cBack (rowGet b y) t x + cFwd (rowGet b y) t (x+1) 8)

/-! ### removeMatches and collapseBoard -/

/-- `removeMatches`: null the type of every matched gem's cell. -/
def removeMatches (b : Board) (ms : List Gem) : Board :=
  ms.foldl (fun bb g => setG bb g.y g.x { gemAt bb g.y g.x with type := none }) b

/-- Compaction loop of `collapseBoard` for column x, processing rows
y-1, y-2, ..., 0 (first argument is the row counter, second is `emptySpots`).
The `renderY` animation field and the returned `fallingGems` array are
presentation-only and omitted. -/
def compactAux (x : Nat) : Nat → Nat → Board → Board × Nat
  | 0, e, b => (b, e)
  | y+1, e, b =>
    if typeAt b y x = none then compactAux x y (e+1) b
    else if 0 < e then
      let gem := gemAt b y x
      let targetY := y + e
      let b1 := setG b targetY x { gem with x := x, y := targetY }
      let b2 := setG b1 y x { gem with type := none }
      compactAux x y e b2
    else compactAux x y e b

/-- Refill loop of `collapseBoard` for column x: fill rows y, y+1, ...
(`rem` of them) with fresh draws. -/
def refillAux (x : Nat) : Nat → Nat → RNG → Board → Board × RNG
  | _, 0, s, b => (b, s)
  | y, rem+1, s, b =>
    let d := getRandomGemType s
    refillAux x (y+1) rem d.2 (setG b y x { x := x, y := y, type := some d.1 })

/-- Column loop of `collapseBoard`: compact then refill columns x, x+1, ... -/
def collapseCols : Nat → Nat → RNG → Board → Board × RNG
  | _, 0, s, b => (b, s)
  | x, f+1, s, b =>
    let p := compactAux x 8 0 b
    let q := refillAux x 0 p.2 s p.1
    collapseCols (x+1) f q.2 q.1

/-- `collapseBoard`: per column, compact occupied cells downward and refill
the vacated top cells with fresh draws. -/
def collapseBoard (b : Board) (s : RNG) : Board × RNG := collapseCols 0 8 s b

/-! ### The resolution loop and the mouseup handler -/

/-- One iteration of the cascade body: detect, remove, collapse. -/
def stepC (p : Board × RNG) : Board × RNG :=
  collapseBoard (removeMatches p.1 (findMatches p.1)) p.2

/-- The cascade loop of the mouseup handler
(`while (matches.length > 0) { score += matches.length*100; remove; collapse }`),
with explicit fuel; `none` when the fuel runs out before a match-free state. -/
def runCascade : Nat → Board → RNG → Nat → Option (Board × RNG × Nat)
  | 0, b, s, score => if findMatches b = [] then some (b, s, score) else none
  | fuel+1, b, s, score =>
    let ms := findMatches b
    if ms = [] then some (b, s, score)
    else
      let p := collapseBoard (removeMatches b ms) s
      runCascade fuel p.1 p.2 (score + ms.length * 100)

/-- Move validation of the mouseup handler: bounds, adjacency, distinctness. -/
def swapGuard (sel : Gem) (nx ny : Int) : Bool :=
  let dx := (nx - (sel.x : Int)).natAbs
  let dy := (ny - (sel.y : Int)).natAbs
  let isAdjacent := (dx = 1 ∧ dy = 0) ∨ (dx = 0 ∧ dy = 1)
  decide (0 ≤ nx ∧ nx < 8 ∧ 0 ≤ ny ∧ ny < 8 ∧ isAdjacent ∧
    (nx ≠ (sel.x : Int) ∨ ny ≠ (sel.y : Int)))

/-- The swap performed by the mouseup handler: the target gem moves to the
selected cell and vice versa, with coordinates rewritten. -/
def swappedBoard (b : Board) (sel : Gem) (nxx nyy : Nat) : Board :=
  let target := gemAt b nyy nxx
  let b1 := setG b sel.y sel.x { target with x := sel.x, y := sel.y }
  setG b1 nyy nxx { sel with x := nxx, y := nyy }

/-- `canMove` of the mouseup handler. -/
def canMoveB (b2 : Board) (sel target : Gem) (nxx nyy : Nat) : Bool :=
  hasChainOfThree b2 nxx nyy sel.type || hasChainOfThree b2 sel.x sel.y target.type

/-- Is the swap request accepted (guards pass and `canMove` holds)? -/
def swapAccepted (b : Board) (sel : Gem) (nx ny : Int) : Bool :=
  swapGuard sel nx ny &&
    (let nxx := nx.toNat
     let nyy := ny.toNat
     canMoveB (swappedBoard b sel nxx nyy) sel (gemAt b nyy nxx) nxx nyy)

/-- The full mouseup handler acting on (board, stream, score): validate,
swap, revert on `!canMove`, otherwise run the cascade. -/
def attemptSwap (fuel : Nat) (b : Board) (s : RNG) (score : Nat) (sel : Gem)
    (nx ny : Int) : Option (Board × RNG × Nat) :=
  if swapGuard sel nx ny then
    let nxx := nx.toNat
    let nyy := ny.toNat
    let target := gemAt b nyy nxx
    let b2 := swappedBoard b sel nxx nyy
    if canMoveB b2 sel target nxx nyy then runCascade fuel b2 s score
    else some (setG (setG b2 nyy nxx target) sel.y sel.x sel, s, score)
  else some (b, s, score)

/-! ### Specification-side notions -/

/-- The cell at line position p lies on a contiguous run of ≥ 3 cells of one
identical non-empty type. -/
def lineRun (get : Line) (p : Nat) : Prop :=
  ∃ a c t, a ≤ p ∧ p ≤ c ∧ a + 2 ≤ c ∧ ∀ u, a ≤ u → u ≤ c → get u = some t

/-- Cell (y, x) lies on a horizontal run of length ≥ 3. -/
def inRunH (b : Board) (y x : Nat) : Prop := lineRun (rowGet b y) x

/-- Cell (y, x) lies on a vertical run of length ≥ 3. -/
def inRunV (b : Board) (y x : Nat) : Prop := lineRun (colGet b x) y

/-- Every cell's stored coordinates agree with its position in the array. -/
def coherent (b : Board) : Prop :=
  ∀ (y x : Idx), ((b.get y).get x).x = x.val ∧ ((b.get y).get x).y = y.val

/-- The types of column x, read top to bottom. -/
def colTypes (b : Board) (x : Nat) : List (Option GemType) :=
  (List.range 8).map (fun y => typeAt b y x)

/-- The gems of column x, read top to bottom. -/
def colGems (b : Board) (x : Nat) : List Gem :=
  (List.range 8).map (fun y => gemAt b y x)

/-- The cascade started on (b, s) eventually reaches a match-free board. -/
def cascadeTerminates (b : Board) (s : RNG) : Prop :=
  ∃ n, findMatches ((stepC^[n] (b, s)).1) = []

/-! ### Basic lemmas about reads and writes -/

theorem board_ext {b b' : Board} (h : ∀ y x : Nat, y < 8 → x < 8 → gemAt b y x = gemAt b' y x) :
    b = b' := by
  apply Mathlib.Vector.ext
  intro y
  apply Mathlib.Vector.ext
  intro x
  have := h y.val x.val y.isLt x.isLt
  simpa [gemAt, y.isLt, x.isLt] using this

theorem gemAt_eq_get (b : Board) (y x : Idx) : gemAt b y.val x.val = (b.get y).get x := by
  simp [gemAt, y.isLt, x.isLt]

theorem gemAt_setG_self (b : Board) (y x : Nat) (g : Gem) (hy : y < 8) (hx : x < 8) :
    gemAt (setG b y x g) y x = g := by
  simp only [gemAt, setG, dif_pos (And.intro hy hx)]
  rw [Mathlib.Vector.get_set_same, Mathlib.Vector.get_set_same]

theorem gemAt_setG_ne (b : Board) (y' x' : Nat) (g : Gem) (y x : Nat)
    (h : y' ≠ y ∨ x' ≠ x) : gemAt (setG b y' x' g) y x = gemAt b y x := by
  by_cases hw : y' < 8 ∧ x' < 8
  · simp only [setG, dif_pos hw]
    by_cases hr : y < 8 ∧ x < 8
    · simp only [gemAt, dif_pos hr]
      by_cases hyy : y' = y
      · subst hyy
        have hx : x' ≠ x := h.resolve_left (fun hc => hc rfl)
        have hfe : (⟨y', hw.1⟩ : Idx) = ⟨y', hr.1⟩ := rfl
        rw [hfe, Mathlib.Vector.get_set_same]
        exact Mathlib.Vector.get_set_of_ne (Fin.ne_of_val_ne hx) g
      · rw [Mathlib.Vector.get_set_of_ne (Fin.ne_of_val_ne hyy)]
    · simp only [gemAt, dif_neg hr]
  · simp only [setG, dif_neg hw]

theorem gemAt_setG_oob (b : Board) (y x : Nat) (g : Gem) (h : ¬(y < 8 ∧ x < 8)) :
    setG b y x g = b := by
  simp only [setG, dif_neg h]

theorem typeAt_setG_self (b : Board) (y x : Nat) (g : Gem) (hy : y < 8) (hx : x < 8) :
    typeAt (setG b y x g) y x = g.type := by
  rw [typeAt, gemAt_setG_self b y x g hy hx]

theorem typeAt_setG_ne (b : Board) (y' x' : Nat) (g : Gem) (y x : Nat)
    (h : y' ≠ y ∨ x' ≠ x) : typeAt (setG b y' x' g) y x = typeAt b y x := by
  rw [typeAt, gemAt_setG_ne b y' x' g y x h]
  rfl

theorem typeAt_oob (b : Board) (y x : Nat) (h : ¬(y < 8 ∧ x < 8)) :
    typeAt b y x = none := by
  simp [typeAt, gemAt, h]

theorem typeAt_isSome_bounds {b : Board} {y x : Nat} (h : (typeAt b y x).isSome = true) :
    y < 8 ∧ x < 8 := by
  by_contra hc
  rw [typeAt_oob b y x hc] at h
  simp at h

/-! ### Characterization of the findMatches marking pass -/

theorem getM_empty (y x : Nat) : getM (fun _ _ => false) y x = false := by
  unfold getM
  split <;> rfl

theorem getM_setM (m : Marks) (y x q1 q2 : Nat) :
    getM (setM m y x) q1 q2 = true ↔
      (q1 = y ∧ q2 = x ∧ y < 8 ∧ x < 8) ∨ getM m q1 q2 = true := by
  by_cases hb : q1 < 8 ∧ q2 < 8
  · simp only [getM, dif_pos hb, setM]
    by_cases hc : q1 = y ∧ q2 = x
    · simp [hc, hb.1, hb.2, hc.1 ▸ hb.1, hc.2 ▸ hb.2]
    · have : ¬((⟨q1, hb.1⟩ : Idx).val = y ∧ (⟨q2, hb.2⟩ : Idx).val = x) := hc
      simp only [this, if_neg this]
      constructor
      · exact fun h => Or.inr h
      · rintro (⟨h1, h2, _⟩ | h)
        · exact absurd ⟨h1, h2⟩ hc
        · exact h
  · simp only [getM, dif_neg hb]
    constructor
    · intro h; exact absurd h (by simp)
    · rintro (⟨h1, h2, h3, h4⟩ | h)
      · exact absurd ⟨h1 ▸ h3, h2 ▸ h4⟩ hb
      · exact absurd h (by simp)

section LineScan

variable {mark : Nat → Marks → Marks} {get : Line} {pos : Nat → Nat × Nat} {t : GemType}

theorem runExtend_mono
    (Hpres : ∀ i mm q1 q2, getM mm q1 q2 = true → getM (mark i mm) q1 q2 = true) :
    ∀ f k m q1 q2, getM m q1 q2 = true →
      getM (runExtend mark get t k f m) q1 q2 = true := by
  intro f
  induction f with
  | zero => intro k m q1 q2 h; exact h
  | succ f ih =>
    intro k m q1 q2 h
    rw [runExtend]
    split
    · exact ih (k+1) (mark k m) q1 q2 (Hpres k m q1 q2 h)
    · exact h

theorem runExtend_sound
    (Hnew : ∀ i mm q1 q2, getM (mark i mm) q1 q2 = true →
      (i < 8 ∧ pos i = (q1, q2)) ∨ getM mm q1 q2 = true) :
    ∀ f k m q1 q2, getM (runExtend mark get t k f m) q1 q2 = true →
      getM m q1 q2 = true ∨
        ∃ p, k ≤ p ∧ p < 8 ∧ pos p = (q1, q2) ∧ ∀ u, k ≤ u → u ≤ p → get u = some t := by
  intro f
  induction f with
  | zero => intro k m q1 q2 h; exact Or.inl h
  | succ f ih =>
    intro k m q1 q2 h
    rw [runExtend] at h
    split at h
    · rename_i hc
      rcases ih (k+1) (mark k m) q1 q2 h with h' | ⟨p, hkp, hp8, hpos, hall⟩
      · rcases Hnew k m q1 q2 h' with ⟨hk8, hpos⟩ | h''
        · exact Or.inr ⟨k, le_refl k, hc.1, hpos, fun u hku huk =>
            (le_antisymm huk hku) ▸ hc.2⟩
        · exact Or.inl h''
      · refine Or.inr ⟨p, Nat.le_of_succ_le hkp, hp8, hpos, fun u hku hup => ?_⟩
        rcases Nat.eq_or_lt_of_le hku with he | hlt
        · exact he ▸ hc.2
        · exact hall u hlt hup
    · exact Or.inl h

theorem runExtend_complete
    (Hpres : ∀ i mm q1 q2, getM mm q1 q2 = true → getM (mark i mm) q1 q2 = true)
    (Hset : ∀ i mm, i < 8 → getM (mark i mm) (pos i).1 (pos i).2 = true) :
    ∀ f k p m, k ≤ p → p < 8 → (∀ u, k ≤ u → u ≤ p → get u = some t) →
      p + 1 ≤ k + f →
      getM (runExtend mark get t k f m) (pos p).1 (pos p).2 = true := by
  intro f
  induction f with
  | zero => intro k p m hkp hp8 _ hfuel; omega
  | succ f ih =>
    intro k p m hkp hp8 hall hfuel
    have hc : k < 8 ∧ get k = some t :=
      ⟨Nat.lt_of_le_of_lt hkp hp8, hall k (le_refl k) hkp⟩
    rw [runExtend, if_pos hc]
    rcases Nat.eq_or_lt_of_le hkp with he | hlt
    · subst he
      exact runExtend_mono Hpres f (k+1) (mark k m) _ _ (Hset k m hc.1)
    · exact ih (k+1) p (mark k m) hlt hp8
        (fun u hu1 hu2 => hall u (Nat.le_of_succ_le hu1) hu2) (by omega)

theorem scanLine_mono
    (Hpres : ∀ i mm q1 q2, getM mm q1 q2 = true → getM (mark i mm) q1 q2 = true) :
    ∀ f i m q1 q2, getM m q1 q2 = true →
      getM (scanLine mark get i f m) q1 q2 = true := by
  intro f
  induction f with
  | zero => intro i m q1 q2 h; exact h
  | succ f ih =>
    intro i m q1 q2 h
    rw [scanLine]
    apply ih
    split
    · split
      · exact runExtend_mono Hpres 8 _ _ _ _
          (Hpres _ _ _ _ (Hpres _ _ _ _ (Hpres _ _ _ _ h)))
      · exact h
    · exact h

theorem scanLine_sound
    (Hnew : ∀ i mm q1 q2, getM (mark i mm) q1 q2 = true →
      (i < 8 ∧ pos i = (q1, q2)) ∨ getM mm q1 q2 = true) :
    ∀ f i m q1 q2, getM (scanLine mark get i f m) q1 q2 = true →
      getM m q1 q2 = true ∨ ∃ p, p < 8 ∧ pos p = (q1, q2) ∧ lineRun get p := by
  intro f
  induction f with
  | zero => intro i m q1 q2 h; exact Or.inl h
  | succ f ih =>
    intro i m q1 q2 h
    rw [scanLine] at h
    rcases ih (i+1) _ q1 q2 h with h' | found
    · split at h'
      · rename_i t' hti
        split at h'
        · rename_i hwin
          rcases runExtend_sound Hnew 8 (i+3) _ q1 q2 h' with h2 | ⟨p, hip, hp8, hpos, hall⟩
          · -- marked by one of the three window marks
            rcases Hnew (i+2) _ q1 q2 h2 with ⟨h8, hpos⟩ | h3
            · exact Or.inr ⟨i+2, h8, hpos, ⟨i, i+2, t', by omega, le_refl _, by omega,
                fun u hu1 hu2 => by
                  rcases (by omega : u = i ∨ u = i + 1 ∨ u = i + 2) with rfl | rfl | rfl
                  · exact hti
                  · exact hwin.1
                  · exact hwin.2⟩⟩
            · rcases Hnew (i+1) _ q1 q2 h3 with ⟨h8, hpos⟩ | h4
              · exact Or.inr ⟨i+1, h8, hpos, ⟨i, i+2, t', by omega, by omega, by omega,
                  fun u hu1 hu2 => by
                    rcases (by omega : u = i ∨ u = i + 1 ∨ u = i + 2) with rfl | rfl | rfl
                    · exact hti
                    · exact hwin.1
                    · exact hwin.2⟩⟩
              · rcases Hnew i _ q1 q2 h4 with ⟨h8, hpos⟩ | h5
                · exact Or.inr ⟨i, h8, hpos, ⟨i, i+2, t', le_refl _, by omega, by omega,
                    fun u hu1 hu2 => by
                      rcases (by omega : u = i ∨ u = i + 1 ∨ u = i + 2) with rfl | rfl | rfl
                      · exact hti
                      · exact hwin.1
                      · exact hwin.2⟩⟩
                · exact Or.inl h5
          · -- marked by the extension loop
            refine Or.inr ⟨p, hp8, hpos, ⟨i, p, t', by omega, by omega, by omega,
              fun u hu1 hu2 => ?_⟩⟩
            by_cases hu3 : i + 3 ≤ u
            · exact hall u hu3 hu2
            · rcases (by omega : u = i ∨ u = i + 1 ∨ u = i + 2) with rfl | rfl | rfl
              · exact hti
              · exact hwin.1
              · exact hwin.2
        · exact Or.inl h'
      · exact Or.inl h'
    · exact Or.inr found

theorem scanLine_complete
    (Hpres : ∀ i mm q1 q2, getM mm q1 q2 = true → getM (mark i mm) q1 q2 = true)
    (Hset : ∀ i mm, i < 8 → getM (mark i mm) (pos i).1 (pos i).2 = true)
    (HgetT : ∀ u v, get u = some v → u < 8) :
    ∀ f i m a c p, a ≤ p → p ≤ c → a + 2 ≤ c →
      (∀ u, a ≤ u → u ≤ c → get u = some t) → i ≤ a → a < i + f →
      getM (scanLine mark get i f m) (pos p).1 (pos p).2 = true := by
  intro f
  induction f with
  | zero => intro i m a c p _ _ _ _ _ hfa; omega
  | succ f ih =>
    intro i m a c p hap hpc hac hall hia haf
    have hc8 : c < 8 := HgetT c t (hall c (by omega) (le_refl c))
    rcases Nat.eq_or_lt_of_le hia with he | hlt
    · subst he
      rw [scanLine]
      have hti : get i = some t := hall i (le_refl i) (by omega)
      have hwin : get (i+1) = some t ∧ get (i+2) = some t :=
        ⟨hall (i+1) (by omega) (by omega), hall (i+2) (by omega) (by omega)⟩
      apply scanLine_mono Hpres
      rw [hti]
      dsimp only
      rw [if_pos hwin]
      by_cases hp3 : i + 3 ≤ p
      · exact runExtend_complete Hpres Hset 8 (i+3) p _ hp3 (by omega)
          (fun u hu1 hu2 => hall u (by omega) (by omega)) (by omega)
      · apply runExtend_mono Hpres
        rcases (by omega : p = i ∨ p = i + 1 ∨ p = i + 2) with hpe | hpe | hpe
        · subst hpe
          exact Hpres _ _ _ _ (Hpres _ _ _ _ (Hset p _ (by omega)))
        · subst hpe
          exact Hpres _ _ _ _ (Hset (i+1) _ (by omega))
        · subst hpe
          exact Hset (i+2) _ (by omega)
    · rw [scanLine]
      exact ih (i+1) _ a c p hap hpc hac hall hlt (by omega)

end LineScan

theorem rowGet_bound (b : Board) (y : Nat) : ∀ u v, rowGet b y u = some v → u < 8 := by
  intro u v h
  have : (typeAt b y u).isSome = true := by rw [show typeAt b y u = rowGet b y u from rfl, h]; rfl
  exact (typeAt_isSome_bounds this).2

theorem colGet_bound (b : Board) (x : Nat) : ∀ u v, colGet b x u = some v → u < 8 := by
  intro u v h
  have : (typeAt b u x).isSome = true := by rw [show typeAt b u x = colGet b x u from rfl, h]; rfl
  exact (typeAt_isSome_bounds this).1

theorem inRunH_bounds {b : Board} {y x : Nat} (h : inRunH b y x) : y < 8 ∧ x < 8 := by
  obtain ⟨a, c, t, hax, hxc, _, hall⟩ := h
  have := hall x hax hxc
  exact typeAt_isSome_bounds (by rw [show typeAt b y x = rowGet b y x from rfl, this]; rfl)

theorem inRunV_bounds {b : Board} {y x : Nat} (h : inRunV b y x) : y < 8 ∧ x < 8 := by
  obtain ⟨a, c, t, hay, hyc, _, hall⟩ := h
  have := hall y hay hyc
  exact typeAt_isSome_bounds (by rw [show typeAt b y x = colGet b x y from rfl, this]; rfl)

theorem setM_pres (y : Nat) :
    ∀ i mm q1 q2, getM mm q1 q2 = true → getM (setM mm y i) q1 q2 = true :=
  fun i mm q1 q2 h => (getM_setM mm y i q1 q2).mpr (Or.inr h)

theorem setM_pres_col (x : Nat) :
    ∀ i mm q1 q2, getM mm q1 q2 = true → getM (setM mm i x) q1 q2 = true :=
  fun i mm q1 q2 h => (getM_setM mm i x q1 q2).mpr (Or.inr h)

theorem setM_new (y : Nat) :
    ∀ i mm q1 q2, getM (setM mm y i) q1 q2 = true →
      (i < 8 ∧ ((fun i => ((y, i) : Nat × Nat)) i = (q1, q2))) ∨ getM mm q1 q2 = true := by
  intro i mm q1 q2 h
  rcases (getM_setM mm y i q1 q2).mp h with ⟨h1, h2, _, h4⟩ | h'
  · exact Or.inl ⟨h4, by simp [h1, h2]⟩
  · exact Or.inr h'

theorem setM_new_col (x : Nat) :
    ∀ i mm q1 q2, getM (setM mm i x) q1 q2 = true →
      (i < 8 ∧ ((fun i => ((i, x) : Nat × Nat)) i = (q1, q2))) ∨ getM mm q1 q2 = true := by
  intro i mm q1 q2 h
  rcases (getM_setM mm i x q1 q2).mp h with ⟨h1, h2, h3, _⟩ | h'
  · exact Or.inl ⟨h3, by simp [h1, h2]⟩
  · exact Or.inr h'

theorem setM_set (y : Nat) (hy : y < 8) :
    ∀ i mm, i < 8 →
      getM (setM mm y i) ((fun i => ((y, i) : Nat × Nat)) i).1 ((fun i => ((y, i) : Nat × Nat)) i).2 = true :=
  fun i mm hi => (getM_setM mm y i y i).mpr (Or.inl ⟨rfl, rfl, hy, hi⟩)

theorem setM_set_col (x : Nat) (hx : x < 8) :
    ∀ i mm, i < 8 →
      getM (setM mm i x) ((fun i => ((i, x) : Nat × Nat)) i).1 ((fun i => ((i, x) : Nat × Nat)) i).2 = true :=
  fun i mm hi => (getM_setM mm i x i x).mpr (Or.inl ⟨rfl, rfl, hi, hx⟩)

theorem hScanRows_mono (b : Board) :
    ∀ f y0 m q1 q2, getM m q1 q2 = true → getM (hScanRows b y0 f m) q1 q2 = true := by
  intro f
  induction f with
  | zero => intro y0 m q1 q2 h; exact h
  | succ f ih =>
    intro y0 m q1 q2 h
    rw [hScanRows]
    exact ih (y0+1) _ q1 q2 (scanLine_mono (setM_pres y0) 6 0 m q1 q2 h)

theorem vScanCols_mono (b : Board) :
    ∀ f x0 m q1 q2, getM m q1 q2 = true → getM (vScanCols b x0 f m) q1 q2 = true := by
  intro f
  induction f with
  | zero => intro x0 m q1 q2 h; exact h
  | succ f ih =>
    intro x0 m q1 q2 h
    rw [vScanCols]
    exact ih (x0+1) _ q1 q2 (scanLine_mono (setM_pres_col x0) 6 0 m q1 q2 h)

theorem hScanRows_sound (b : Board) :
    ∀ f y0 m q1 q2, getM (hScanRows b y0 f m) q1 q2 = true →
      getM m q1 q2 = true ∨ inRunH b q1 q2 := by
  intro f
  induction f with
  | zero => intro y0 m q1 q2 h; exact Or.inl h
  | succ f ih =>
    intro y0 m q1 q2 h
    rw [hScanRows] at h
    rcases ih (y0+1) _ q1 q2 h with h' | hrun
    · rcases scanLine_sound (setM_new y0) 6 0 m q1 q2 h' with h'' | ⟨p, _, hpos, hrun⟩
      · exact Or.inl h''
      · refine Or.inr ?_
        have h1 : y0 = q1 := congrArg Prod.fst hpos
        have h2 : p = q2 := congrArg Prod.snd hpos
        rw [← h1, ← h2]
        exact hrun
    · exact Or.inr hrun

theorem vScanCols_sound (b : Board) :
    ∀ f x0 m q1 q2, getM (vScanCols b x0 f m) q1 q2 = true →
      getM m q1 q2 = true ∨ inRunV b q1 q2 := by
  intro f
  induction f with
  | zero => intro x0 m q1 q2 h; exact Or.inl h
  | succ f ih =>
    intro x0 m q1 q2 h
    rw [vScanCols] at h
    rcases ih (x0+1) _ q1 q2 h with h' | hrun
    · rcases scanLine_sound (setM_new_col x0) 6 0 m q1 q2 h' with h'' | ⟨p, _, hpos, hrun⟩
      · exact Or.inl h''
      · refine Or.inr ?_
        have h1 : p = q1 := congrArg Prod.fst hpos
        have h2 : x0 = q2 := congrArg Prod.snd hpos
        rw [← h1, ← h2]
        exact hrun
    · exact Or.inr hrun

theorem hScanRows_complete (b : Board) :
    ∀ f y0 m y x, inRunH b y x → y0 ≤ y → y < y0 + f →
      getM (hScanRows b y0 f m) y x = true := by
  intro f
  induction f with
  | zero => intro y0 m y x _ _ hf; omega
  | succ f ih =>
    intro y0 m y x hrun h0 hf
    have hy8 : y < 8 := (inRunH_bounds hrun).1
    rw [hScanRows]
    rcases Nat.eq_or_lt_of_le h0 with he | hlt
    · subst he
      apply hScanRows_mono
      obtain ⟨a, c, t, hax, hxc, hac, hall⟩ := hrun
      have hc8 : c < 8 := rowGet_bound b y0 c t (hall c (by omega) (le_refl c))
      exact scanLine_complete (setM_pres y0) (setM_set y0 hy8) (rowGet_bound b y0)
        6 0 m a c x hax hxc hac hall (Nat.zero_le a) (by omega)
    · exact ih (y0+1) _ y x hrun hlt (by omega)

theorem vScanCols_complete (b : Board) :
    ∀ f x0 m y x, inRunV b y x → x0 ≤ x → x < x0 + f →
      getM (vScanCols b x0 f m) y x = true := by
  intro f
  induction f with
  | zero => intro x0 m y x _ _ hf; omega
  | succ f ih =>
    intro x0 m y x hrun h0 hf
    have hx8 : x < 8 := (inRunV_bounds hrun).2
    rw [vScanCols]
    rcases Nat.eq_or_lt_of_le h0 with he | hlt
    · subst he
      apply vScanCols_mono
      obtain ⟨a, c, t, hay, hyc, hac, hall⟩ := hrun
      have hc8 : c < 8 := colGet_bound b x0 c t (hall c (by omega) (le_refl c))
      exact scanLine_complete (setM_pres_col x0) (setM_set_col x0 hx8) (colGet_bound b x0)
        6 0 m a c y hay hyc hac hall (Nat.zero_le a) (by omega)
    · exact ih (x0+1) _ y x hrun hlt (by omega)

/-- The `matched` grid of `findMatches` holds exactly at the cells lying on a
horizontal or vertical run of length ≥ 3. -/
theorem allMarks_iff (b : Board) (y x : Nat) :
    getM (allMarks b) y x = true ↔ inRunH b y x ∨ inRunV b y x := by
  constructor
  · intro h
    rcases vScanCols_sound b 8 0 _ y x h with h' | hv
    · rcases hScanRows_sound b 8 0 _ y x h' with h'' | hh
      · rw [getM_empty] at h''
        exact absurd h'' (by simp)
      · exact Or.inl hh
    · exact Or.inr hv
  · rintro (hh | hv)
    · have hy8 : y < 8 := (inRunH_bounds hh).1
      exact vScanCols_mono b 8 0 _ y x
        (hScanRows_complete b 8 0 _ y x hh (Nat.zero_le y) (by omega))
    · have hx8 : x < 8 := (inRunV_bounds hv).2
      exact vScanCols_complete b 8 0 _ y x hv (Nat.zero_le x) (by omega)

/-! ### The collection pass of findMatches -/

theorem getM_true_bounds {m : Marks} {y x : Nat} (h : getM m y x = true) :
    y < 8 ∧ x < 8 := by
  by_contra hc
  rw [getM, dif_neg hc] at h
  exact absurd h (by simp)

theorem posRow_mem (m : Marks) (y : Nat) :
    ∀ f x p, p ∈ posRow m y x f ↔
      ∃ x', x ≤ x' ∧ x' < x + f ∧ p = (y, x') ∧ getM m y x' = true := by
  intro f
  induction f with
  | zero =>
    intro x p
    simp only [posRow, List.not_mem_nil, false_iff]
    rintro ⟨x', h1, h2, _, _⟩
    omega
  | succ f ih =>
    intro x p
    rw [posRow, List.mem_append, ih (x+1) p]
    constructor
    · rintro (hmem | ⟨x', h1, h2, h3, h4⟩)
      · by_cases hg : getM m y x = true
        · rw [if_pos hg] at hmem
          rcases List.mem_singleton.mp hmem with rfl
          exact ⟨x, le_refl x, by omega, rfl, hg⟩
        · rw [if_neg hg] at hmem
          exact absurd hmem (List.not_mem_nil p)
      · exact ⟨x', by omega, by omega, h3, h4⟩
    · rintro ⟨x', h1, h2, h3, h4⟩
      rcases Nat.eq_or_lt_of_le h1 with he | hlt
      · subst he
        left
        rw [if_pos h4]
        exact h3 ▸ List.mem_singleton.mpr rfl
      · exact Or.inr ⟨x', hlt, by omega, h3, h4⟩

theorem posRows_mem (m : Marks) :
    ∀ f y p, p ∈ posRows m y f ↔
      ∃ y' x', y ≤ y' ∧ y' < y + f ∧ x' < 8 ∧ p = (y', x') ∧ getM m y' x' = true := by
  intro f
  induction f with
  | zero =>
    intro y p
    simp only [posRows, List.not_mem_nil, false_iff]
    rintro ⟨y', x', h1, h2, _, _, _⟩
    omega
  | succ f ih =>
    intro y p
    rw [posRows, List.mem_append, ih (y+1) p, posRow_mem m y 8 0 p]
    constructor
    · rintro (⟨x', h1, h2, h3, h4⟩ | ⟨y', x', h1, h2, h3, h4, h5⟩)
      · exact ⟨y, x', le_refl y, by omega, by omega, h3, h4⟩
      · exact ⟨y', x', by omega, by omega, h3, h4, h5⟩
    · rintro ⟨y', x', h1, h2, h3, h4, h5⟩
      rcases Nat.eq_or_lt_of_le h1 with he | hlt
      · subst he
        exact Or.inl ⟨x', Nat.zero_le x', by omega, h4, h5⟩
      · exact Or.inr ⟨y', x', hlt, by omega, h3, h4, h5⟩

/-- Membership in the matched-position list is exactly a set mark. -/
theorem mem_matchedPositions (b : Board) (p : Nat × Nat) :
    p ∈ matchedPositions b ↔ getM (allMarks b) p.1 p.2 = true := by
  rw [matchedPositions, posRows_mem]
  constructor
  · rintro ⟨y', x', _, _, _, rfl, h5⟩
    exact h5
  · intro h
    obtain ⟨h1, h2⟩ := getM_true_bounds h
    exact ⟨p.1, p.2, Nat.zero_le _, by omega, h2, rfl, h⟩

theorem posRow_nodup (m : Marks) (y : Nat) : ∀ f x, (posRow m y x f).Nodup := by
  intro f
  induction f with
  | zero => intro x; exact List.nodup_nil
  | succ f ih =>
    intro x
    rw [posRow, List.nodup_append]
    refine ⟨?_, ih (x+1), ?_⟩
    · split
      · exact List.nodup_singleton _
      · exact List.nodup_nil
    · intro p hp hp'
      obtain ⟨x', h1, _, h3, _⟩ := (posRow_mem m y f (x+1) p).mp hp'
      split at hp
      · rcases List.mem_singleton.mp hp
        rcases h3
        omega
      · exact absurd hp (List.not_mem_nil p)

theorem posRows_nodup (m : Marks) : ∀ f y, (posRows m y f).Nodup := by
  intro f
  induction f with
  | zero => intro y; exact List.nodup_nil
  | succ f ih =>
    intro y
    rw [posRows, List.nodup_append]
    refine ⟨posRow_nodup m y 8 0, ih (y+1), ?_⟩
    intro p hp hp'
    obtain ⟨x', _, _, h3, _⟩ := (posRow_mem m y 8 0 p).mp hp
    obtain ⟨y', x'', h1', _, _, h4', _⟩ := (posRows_mem m f (y+1) p).mp hp'
    rw [h3] at h4'
    have : y = y' := congrArg Prod.fst h4'
    omega

/-- The matched-position list has no duplicate cells. -/
theorem matchedPositions_nodup (b : Board) : (matchedPositions b).Nodup :=
  posRows_nodup (allMarks b) 8 0

theorem collectRow_eq (b : Board) (m : Marks) (y : Nat) :
    ∀ f x, collectRow b m y x f = (posRow m y x f).map (fun p => gemAt b p.1 p.2) := by
  intro f
  induction f with
  | zero => intro x; rfl
  | succ f ih =>
    intro x
    rw [collectRow, posRow, List.map_append, ih (x+1)]
    congr 1
    split <;> rfl

theorem collectRows_eq (b : Board) (m : Marks) :
    ∀ f y, collectRows b m y f = (posRows m y f).map (fun p => gemAt b p.1 p.2) := by
  intro f
  induction f with
  | zero => intro y; rfl
  | succ f ih =>
    intro y
    rw [collectRows, posRows, List.map_append, ih (y+1), collectRow_eq]

/-- `findMatches` returns exactly the gems stored at the matched positions. -/
theorem findMatches_eq (b : Board) :
    findMatches b = (matchedPositions b).map (fun p => gemAt b p.1 p.2) :=
  collectRows_eq b (allMarks b) 8 0

/-- A marked cell always holds a non-null type. -/
theorem marked_isSome {b : Board} {y x : Nat} (h : getM (allMarks b) y x = true) :
    (typeAt b y x).isSome = true := by
  rcases (allMarks_iff b y x).mp h with hr | hr
  · obtain ⟨a, c, t, h1, h2, _, hall⟩ := hr
    rw [show typeAt b y x = rowGet b y x from rfl, hall x h1 h2]
    rfl
  · obtain ⟨a, c, t, h1, h2, _, hall⟩ := hr
    rw [show typeAt b y x = colGet b x y from rfl, hall y h1 h2]
    rfl

/-! ### hasChainOfThree counts exactly the run through the cell -/

theorem cBack_le (get : Line) (t : GemType) : ∀ y, cBack get t y ≤ y := by
  intro y
  induction y with
  | zero => exact le_refl 0
  | succ y ih =>
    rw [cBack]
    split
    · omega
    · omega

theorem cBack_sound (get : Line) (t : GemType) :
    ∀ y u, y - cBack get t y ≤ u → u < y → get u = some t := by
  intro y
  induction y with
  | zero => intro u _ h; omega
  | succ y ih =>
    intro u h1 h2
    rw [cBack] at h1
    split at h1
    · rename_i hy
      rcases Nat.eq_or_lt_of_le (Nat.lt_succ_iff.mp h2) with he | hlt
      · exact he ▸ hy
      · exact ih u (by omega) hlt
    · omega

theorem cBack_complete (get : Line) (t : GemType) :
    ∀ y a, a ≤ y → (∀ u, a ≤ u → u < y → get u = some t) → y - a ≤ cBack get t y := by
  intro y
  induction y with
  | zero => intro a _ _; omega
  | succ y ih =>
    intro a ha hall
    rcases Nat.eq_or_lt_of_le ha with he | hlt
    · subst he; omega
    · have hy : get y = some t := hall y (by omega) (by omega)
      rw [cBack, if_pos hy]
      have := ih a (by omega) (fun u h1 h2 => hall u h1 (by omega))
      omega

theorem cFwd_sound (get : Line) (t : GemType) :
    ∀ f i u, i ≤ u → u < i + cFwd get t i f → get u = some t := by
  intro f
  induction f with
  | zero => intro i u _ h; rw [cFwd] at h; omega
  | succ f ih =>
    intro i u h1 h2
    rw [cFwd] at h2
    split at h2
    · rename_i hc
      rcases Nat.eq_or_lt_of_le h1 with he | hlt
      · exact he ▸ hc.2
      · exact ih (i+1) u hlt (by omega)
    · omega

theorem cFwd_complete (get : Line) (t : GemType) :
    ∀ f i c, (∀ u, i ≤ u → u ≤ c → get u = some t) → c < 8 → c + 1 ≤ i + f →
      i ≤ c → c + 1 - i ≤ cFwd get t i f := by
  intro f
  induction f with
  | zero => intro i c _ _ hf hic; omega
  | succ f ih =>
    intro i c hall hc8 hf hic
    have hc : i < 8 ∧ get i = some t := ⟨by omega, hall i (le_refl i) hic⟩
    rw [cFwd, if_pos hc]
    rcases Nat.eq_or_lt_of_le hic with he | hlt
    · subst he; omega
    · have := ih (i+1) c (fun u h1 h2 => hall u (by omega) h2) hc8 (by omega) hlt
      omega

theorem count_chain_iff {get : Line} {t : GemType} (HB : ∀ u v, get u = some v → u < 8)
    {p : Nat} (hp : get p = some t) :
    (3 ≤ 1 + cBack get t p + cFwd get t (p+1) 8) ↔ lineRun get p := by
  constructor
  · intro h
    have hcb := cBack_le get t p
    refine ⟨p - cBack get t p, p + cFwd get t (p+1) 8, t, by omega, by omega, by omega,
      fun u h1 h2 => ?_⟩
    rcases Nat.lt_trichotomy u p with hlt | he | hgt
    · exact cBack_sound get t p u h1 hlt
    · exact he ▸ hp
    · exact cFwd_sound get t 8 (p+1) u (by omega) (by omega)
  · rintro ⟨a, c, t', hap, hpc, hac, hall⟩
    have ht' : t = t' := by
      have h := hall p hap hpc
      rw [hp] at h
      exact Option.some.inj h
    subst ht'
    have hc8 : c < 8 := HB c t (hall c (by omega) (le_refl c))
    have h1 : p - a ≤ cBack get t p :=
      cBack_complete get t p a hap (fun u hu1 hu2 => hall u hu1 (by omega))
    have h2 : c - p ≤ cFwd get t (p+1) 8 := by
      rcases Nat.eq_or_lt_of_le hpc with he | hlt
      · subst he; omega
      · have := cFwd_complete get t 8 (p+1) c
          (fun u hu1 hu2 => hall u (by omega) hu2) hc8 (by omega) hlt
        omega
    omega

theorem hasChainOfThree_iff (b : Board) (x y : Nat) {t : GemType}
    (hcell : typeAt b y x = some t) :
    hasChainOfThree b x y (some t) = true ↔ inRunV b y x ∨ inRunH b y x := by
  have hv : colGet b x y = some t := hcell
  have hh : rowGet b y x = some t := hcell
  rw [hasChainOfThree]
  rw [Bool.or_eq_true, decide_eq_true_eq, decide_eq_true_eq]
  rw [count_chain_iff (colGet_bound b x) hv, count_chain_iff (rowGet_bound b y) hh]
  rfl

/-! ### The swap and its revert -/

theorem swappedBoard_def (b : Board) (sel : Gem) (nxx nyy : Nat) :
    swappedBoard b sel nxx nyy =
      setG (setG b sel.y sel.x { gemAt b nyy nxx with x := sel.x, y := sel.y })
        nyy nxx { sel with x := nxx, y := nyy } := rfl

theorem swappedBoard_type_new (b : Board) (sel : Gem) (nxx nyy : Nat)
    (hy : nyy < 8) (hx : nxx < 8) :
    typeAt (swappedBoard b sel nxx nyy) nyy nxx = sel.type := by
  rw [swappedBoard_def, typeAt_setG_self _ _ _ _ hy hx]

theorem swappedBoard_type_sel (b : Board) (sel : Gem) (nxx nyy : Nat)
    (hy : sel.y < 8) (hx : sel.x < 8) (hne : nyy ≠ sel.y ∨ nxx ≠ sel.x) :
    typeAt (swappedBoard b sel nxx nyy) sel.y sel.x = (gemAt b nyy nxx).type := by
  rw [swappedBoard_def, typeAt_setG_ne _ _ _ _ _ _ hne, typeAt_setG_self _ _ _ _ hy hx]

/-- Reverting an adjacent swap restores the board exactly. -/
theorem swap_revert (b : Board) (sel : Gem) (nxx nyy : Nat)
    (hsel : gemAt b sel.y sel.x = sel) :
    setG (setG (swappedBoard b sel nxx nyy) nyy nxx (gemAt b nyy nxx)) sel.y sel.x sel = b := by
  apply board_ext
  intro y x hy hx
  by_cases h1 : y = sel.y ∧ x = sel.x
  · rw [h1.1, h1.2, gemAt_setG_self _ _ _ _ (h1.1 ▸ hy) (h1.2 ▸ hx), hsel]
  · have hne1 : sel.y ≠ y ∨ sel.x ≠ x := by
      rcases Decidable.not_and_iff_or_not.mp h1 with h | h
      · exact Or.inl (Ne.symm h)
      · exact Or.inr (Ne.symm h)
    rw [gemAt_setG_ne _ _ _ _ _ _ hne1]
    by_cases h2 : y = nyy ∧ x = nxx
    · rw [h2.1, h2.2, gemAt_setG_self _ _ _ _ (h2.1 ▸ hy) (h2.2 ▸ hx)]
    · have hne2 : nyy ≠ y ∨ nxx ≠ x := by
        rcases Decidable.not_and_iff_or_not.mp h2 with h | h
        · exact Or.inl (Ne.symm h)
        · exact Or.inr (Ne.symm h)
      rw [gemAt_setG_ne _ _ _ _ _ _ hne2, swappedBoard_def,
        gemAt_setG_ne _ _ _ _ _ _ hne2, gemAt_setG_ne _ _ _ _ _ _ hne1]

/-! ### The freshly built board has no matches -/

/-- A run of 3 ends at (y, x) looking left. -/
def leftTripleAt (b : Board) (y x : Nat) : Prop :=
  ∃ t, 2 ≤ x ∧ typeAt b y x = some t ∧ typeAt b y (x-1) = some t ∧ typeAt b y (x-2) = some t

/-- A run of 3 ends at (y, x) looking up. -/
def upTripleAt (b : Board) (y x : Nat) : Prop :=
  ∃ t, 2 ≤ y ∧ typeAt b y x = some t ∧ typeAt b (y-1) x = some t ∧ typeAt b (y-2) x = some t

/-- Cell (y, x) is occupied and completes no run of 3 leftwards or upwards. -/
def cellOK (b : Board) (y x : Nat) : Prop :=
  (typeAt b y x).isSome = true ∧ ¬leftTripleAt b y x ∧ ¬upTripleAt b y x

/-- All cells raster-before (y, x) are `cellOK`. -/
def builtOK (b : Board) (y x : Nat) : Prop :=
  ∀ y' x', y' < 8 → x' < 8 → (y' < y ∨ (y' = y ∧ x' < x)) → cellOK b y' x'

/-- A board with no left/up-closing triples has no runs at all, so
`findMatches` returns the empty list. -/
theorem findMatches_nil_of_noTriples (b : Board)
    (h : ∀ y x, y < 8 → x < 8 → ¬leftTripleAt b y x ∧ ¬upTripleAt b y x) :
    findMatches b = [] := by
  have hmarks : ∀ p : Nat × Nat, p ∉ matchedPositions b := by
    intro p hp
    have hm := (mem_matchedPositions b p).mp hp
    rcases (allMarks_iff b p.1 p.2).mp hm with hr | hr
    · obtain ⟨hy8, hx8⟩ := inRunH_bounds hr
      obtain ⟨a, c, t, hax, hxc, hac, hall⟩ := hr
      have hc8 : c < 8 := rowGet_bound b p.1 c t (hall c (by omega) (le_refl c))
      exact (h p.1 (a+2) hy8 (by omega)).1
        ⟨t, by omega, hall (a+2) (by omega) (by omega),
          by simpa using hall (a+1) (by omega) (by omega),
          by simpa using hall a (le_refl a) (by omega)⟩
    · obtain ⟨hy8, hx8⟩ := inRunV_bounds hr
      obtain ⟨a, c, t, hay, hyc, hac, hall⟩ := hr
      have hc8 : c < 8 := colGet_bound b p.2 c t (hall c (by omega) (le_refl c))
      exact (h (a+2) p.2 (by omega) hx8).2
        ⟨t, by omega, hall (a+2) (by omega) (by omega),
          by simpa using hall (a+1) (by omega) (by omega),
          by simpa using hall a (le_refl a) (by omega)⟩
  rw [findMatches_eq, List.eq_nil_iff_forall_not_mem.mpr hmarks]
  rfl

theorem getSafeRandomGem_ok (b : Board) (x y : Nat) :
    ∀ fuel s g s', getSafeRandomGem b x y fuel s = some (g, s') → gemOK b x y g := by
  intro fuel
  induction fuel with
  | zero => intro s g s' h; exact absurd h (by simp [getSafeRandomGem])
  | succ fuel ih =>
    intro s g s' h
    rw [getSafeRandomGem] at h
    split at h
    · rename_i hok
      cases h
      exact hok
    · exact ih _ g s' h

/-- Writing a raster-later cell preserves `cellOK` at a raster-earlier cell. -/
theorem cellOK_preserve {b : Board} {yw xw : Nat} {gem : Gem} {y x : Nat}
    (hbefore : y < yw ∨ (y = yw ∧ x < xw)) (hOK : cellOK b y x) :
    cellOK (setG b yw xw gem) y x := by
  have hne : ∀ dy dx : Nat, (yw ≠ y - dy ∨ xw ≠ x - dx) →
      typeAt (setG b yw xw gem) (y - dy) (x - dx) = typeAt b (y - dy) (x - dx) :=
    fun dy dx h => typeAt_setG_ne b yw xw gem (y - dy) (x - dx) h
  obtain ⟨h1, h2, h3⟩ := hOK
  refine ⟨?_, ?_, ?_⟩
  · rw [typeAt_setG_ne b yw xw gem y x (by omega)]
    exact h1
  · intro ⟨t, hx2, hc, hl1, hl2⟩
    refine h2 ⟨t, hx2, ?_, ?_, ?_⟩
    · rw [typeAt_setG_ne b yw xw gem y x (by omega)] at hc; exact hc
    · rw [typeAt_setG_ne b yw xw gem y (x-1) (by omega)] at hl1; exact hl1
    · rw [typeAt_setG_ne b yw xw gem y (x-2) (by omega)] at hl2; exact hl2
  · intro ⟨t, hy2, hc, hu1, hu2⟩
    refine h3 ⟨t, hy2, ?_, ?_, ?_⟩
    · rw [typeAt_setG_ne b yw xw gem y x (by omega)] at hc; exact hc
    · rw [typeAt_setG_ne b yw xw gem (y-1) x (by omega)] at hu1; exact hu1
    · rw [typeAt_setG_ne b yw xw gem (y-2) x (by omega)] at hu2; exact hu2

/-- Assigning a `gemOK`-approved gem at raster position (y, x) extends the
invariant from (y, x) to (y, x+1). -/
theorem builtOK_step {b : Board} {y x : Nat} {g : GemType}
    (hy : y < 8) (hx : x < 8) (hb : builtOK b y x) (hok : gemOK b x y g) :
    builtOK (setG b y x { x := x, y := y, type := some g }) y (x+1) := by
  intro y' x' hy8 hx8 hrast
  by_cases hcur : y' = y ∧ x' = x
  · obtain ⟨rfl, rfl⟩ := hcur
    refine ⟨?_, ?_, ?_⟩
    · rw [typeAt_setG_self b y' x' _ hy8 hx8]
      rfl
    · intro ⟨t, hx2, hc, hl1, hl2⟩
      rw [typeAt_setG_self b y' x' _ hy8 hx8] at hc
      have ht : t = g := (Option.some.inj hc).symm
      subst ht
      rw [typeAt_setG_ne b y' x' _ y' (x'-1) (by omega)] at hl1
      rw [typeAt_setG_ne b y' x' _ y' (x'-2) (by omega)] at hl2
      exact hok.1 ⟨hx2, hl1, hl2⟩
    · intro ⟨t, hy2, hc, hu1, hu2⟩
      rw [typeAt_setG_self b y' x' _ hy8 hx8] at hc
      have ht : t = g := (Option.some.inj hc).symm
      subst ht
      rw [typeAt_setG_ne b y' x' _ (y'-1) x' (by omega)] at hu1
      rw [typeAt_setG_ne b y' x' _ (y'-2) x' (by omega)] at hu2
      exact hok.2 ⟨hy2, hu1, hu2⟩
  · have hbefore : y' < y ∨ (y' = y ∧ x' < x) := by
      rcases hrast with h | ⟨he, hlt⟩
      · exact Or.inl h
      · refine Or.inr ⟨he, ?_⟩
        rcases Decidable.not_and_iff_or_not.mp hcur with h | h
        · exact absurd he h
        · omega
    exact cellOK_preserve hbefore (hb y' x' hy8 hx8 hbefore)

theorem initCells_ok (y fuel : Nat) (hy : y < 8) :
    ∀ rem x b s b' s', x + rem ≤ 8 → builtOK b y x →
      initCells y fuel x rem s b = some (b', s') → builtOK b' y (x + rem) := by
  intro rem
  induction rem with
  | zero =>
    intro x b s b' s' _ hb h
    rw [initCells] at h
    cases h
    exact hb
  | succ rem ih =>
    intro x b s b' s' hbound hb h
    rw [initCells] at h
    split at h
    · exact absurd h (by simp)
    · rename_i g1 s1 hdraw
      have hok := getSafeRandomGem_ok b x y fuel s g1 s1 hdraw
      have hstep := builtOK_step hy (by omega) hb hok
      have := ih (x+1) _ s1 b' s' (by omega) hstep h
      have hfin : x + 1 + rem = x + (rem + 1) := by omega
      rw [hfin] at this
      exact this

theorem builtOK_row_advance {b : Board} {y : Nat} (h : builtOK b y 8) :
    builtOK b (y+1) 0 := by
  intro y' x' hy8 hx8 hrast
  exact h y' x' hy8 hx8 (by omega)

theorem initRows_ok (fuel : Nat) :
    ∀ rem y b s b' s', y + rem ≤ 8 → builtOK b y 0 →
      initRows fuel y rem s b = some (b', s') → builtOK b' (y + rem) 0 := by
  intro rem
  induction rem with
  | zero =>
    intro y b s b' s' _ hb h
    rw [initRows] at h
    cases h
    exact hb
  | succ rem ih =>
    intro y b s b' s' hbound hb h
    rw [initRows] at h
    split at h
    · exact absurd h (by simp)
    · rename_i b1 s1 hrow
      have hcells := initCells_ok y fuel (by omega) 8 0 b s b1 s1 (by omega) hb hrow
      have hnext : builtOK b1 (y+1) 0 := builtOK_row_advance hcells
      have := ih (y+1) b1 s1 b' s' (by omega) hnext h
      have hfin : y + 1 + rem = y + (rem + 1) := by omega
      rw [hfin] at this
      exact this

/-- The board built by `initBoard` satisfies the full invariant. -/
theorem initBoard_builtOK {s : RNG} {fuel : Nat} {b : Board}
    (h : initBoard s fuel = some b) : builtOK b 8 0 := by
  rw [initBoard] at h
  rcases ho : initRows fuel 0 8 s emptyBoard with _ | p
  · rw [ho] at h
    exact absurd h (by simp)
  · rw [ho] at h
    have hb : p.1 = b := by
      simpa using h
    have hempty : builtOK emptyBoard 0 0 := by
      intro y' x' _ _ hrast
      omega
    have := initRows_ok fuel 8 0 emptyBoard s p.1 p.2 (by omega) hempty (by rw [ho])
    exact hb ▸ this

/-! ### collapseBoard: per-column compaction and refill -/

/-- The types of column x at rows a, a+1, ..., a+len-1. -/
def colSeg (b : Board) (x a len : Nat) : List (Option GemType) :=
  (List.range len).map (fun i => typeAt b (a + i) x)

theorem colSeg_zero_eight (b : Board) (x : Nat) : colSeg b x 0 8 = colTypes b x := by
  unfold colSeg colTypes
  apply List.map_congr_left
  intro i _
  rw [Nat.zero_add]

theorem colSeg_length (b : Board) (x a len : Nat) : (colSeg b x a len).length = len := by
  rw [colSeg, List.length_map, List.length_range]

theorem colSeg_snoc (b : Board) (x a len : Nat) :
    colSeg b x a (len+1) = colSeg b x a len ++ [typeAt b (a+len) x] := by
  rw [colSeg, colSeg, List.range_succ, List.map_append]
  rfl

theorem colSeg_cons (b : Board) (x a len : Nat) :
    colSeg b x a (len+1) = typeAt b a x :: colSeg b x (a+1) len := by
  rw [colSeg, colSeg, List.range_succ_eq_map, List.map_cons, List.map_map]
  congr 1
  apply List.map_congr_left
  intro i _
  show typeAt b (a + (i + 1)) x = typeAt b (a + 1 + i) x
  congr 1
  omega

theorem colSeg_split (b : Board) (x a l1 l2 : Nat) :
    colSeg b x a (l1 + l2) = colSeg b x a l1 ++ colSeg b x (a + l1) l2 := by
  rw [colSeg, colSeg, colSeg, List.range_add, List.map_append, List.map_map]
  congr 1
  apply List.map_congr_left
  intro i _
  show typeAt b (a + (l1 + i)) x = typeAt b (a + l1 + i) x
  congr 1
  omega

theorem colSeg_congr {b b' : Board} {x a len : Nat}
    (h : ∀ i, i < len → typeAt b (a + i) x = typeAt b' (a + i) x) :
    colSeg b x a len = colSeg b' x a len := by
  unfold colSeg
  apply List.map_congr_left
  intro i hi
  exact h i (List.mem_range.mp hi)

theorem colSeg_replicate {b : Board} {x a len : Nat}
    (h : ∀ i, i < len → typeAt b (a + i) x = none) :
    colSeg b x a len = List.replicate len none := by
  apply List.eq_replicate_iff.mpr
  refine ⟨colSeg_length b x a len, ?_⟩
  intro o ho
  rw [colSeg] at ho
  obtain ⟨i, hi, rfl⟩ := List.mem_map.mp ho
  exact h i (List.mem_range.mp hi)

theorem count_none_add_reduceOption (l : List (Option GemType)) :
    l.count none + l.reduceOption.length = l.length := by
  induction l with
  | nil => rfl
  | cons o l ih =>
    cases o with
    | none =>
      rw [List.count_cons_self, List.reduceOption_cons_of_none, List.length_cons]
      omega
    | some t =>
      rw [List.count_cons_of_ne (by simp), List.reduceOption_cons_of_some,
        List.length_cons, List.length_cons]
      omega

theorem compactAux_untouched (x : Nat) :
    ∀ fuel e b y' x', (x' ≠ x ∨ fuel + e ≤ y') →
      gemAt (compactAux x fuel e b).1 y' x' = gemAt b y' x' := by
  intro fuel
  induction fuel with
  | zero => intro e b y' x' _; rfl
  | succ fuel ih =>
    intro e b y' x' h
    rw [compactAux]
    split
    · exact ih (e+1) b y' x' (by omega)
    · split
      · rename_i hnn he
        rw [ih e _ y' x' (by omega)]
        rw [gemAt_setG_ne _ _ _ _ _ _ (by omega), gemAt_setG_ne _ _ _ _ _ _ (by omega)]
      · exact ih e b y' x' (by omega)

theorem compactAux_snd (x : Nat) :
    ∀ fuel e b, fuel ≤ 8 → (compactAux x fuel e b).2 = e + (colSeg b x 0 fuel).count none := by
  intro fuel
  induction fuel with
  | zero => intro e b _; rfl
  | succ fuel ih =>
    intro e b hf
    rw [compactAux, colSeg_snoc, List.count_append]
    split
    · rename_i hnull
      rw [ih (e+1) b (by omega)]
      have h0 : typeAt b (0 + fuel) x = none := by rw [Nat.zero_add]; exact hnull
      have hone : List.count (none : Option GemType) [(none : Option GemType)] = 1 := by decide
      rw [h0, hone]
      omega
    · rename_i hnn
      have hcnt : List.count none [typeAt b (0 + fuel) x] = 0 := by
        rw [Nat.zero_add]
        rcases ho : typeAt b fuel x with _ | t
        · exact absurd ho hnn
        · simp
      rw [hcnt]
      split
      · rename_i he
        rw [ih e _ (by omega)]
        have hseg : colSeg (setG (setG b (fuel + e) x
            { gemAt b fuel x with x := x, y := fuel + e }) fuel x
            { gemAt b fuel x with type := none }) x 0 fuel = colSeg b x 0 fuel := by
          apply colSeg_congr
          intro i hi
          rw [typeAt_setG_ne _ _ _ _ _ _ (by omega), typeAt_setG_ne _ _ _ _ _ _ (by omega)]
        rw [hseg]
        omega
      · rw [ih e b (by omega)]
        omega

theorem typeAt_compactAux_untouched (x : Nat) (fuel e : Nat) (b : Board) (y' x' : Nat)
    (h : x' ≠ x ∨ fuel + e ≤ y') :
    typeAt (compactAux x fuel e b).1 y' x' = typeAt b y' x' :=
  congrArg Gem.type (compactAux_untouched x fuel e b y' x' h)

/-- Per-column compaction: the processed prefix of the column becomes its
nulls (on top) followed by its occupied tokens in original order (below). -/
theorem compactAux_spec (x : Nat) (hx : x < 8) :
    ∀ fuel e b, fuel + e ≤ 8 → (∀ i, i < e → typeAt b (fuel + i) x = none) →
      colSeg (compactAux x fuel e b).1 x 0 (fuel + e) =
        List.replicate (e + (colSeg b x 0 fuel).count none) none ++
          ((colSeg b x 0 fuel).reduceOption).map some := by
  intro fuel
  induction fuel with
  | zero =>
    intro e b _ hnull
    have h1 : colSeg (compactAux x 0 e b).1 x 0 (0 + e) = colSeg b x 0 (0 + e) := rfl
    rw [h1, Nat.zero_add, colSeg_replicate (fun i hi => hnull i hi)]
    simp [colSeg]
  | succ fuel ih =>
    intro e b hbound hnull
    rw [compactAux]
    split
    · -- the current row is empty: emptySpots++
      rename_i hnn
      have hnull' : ∀ i, i < e + 1 → typeAt b (fuel + i) x = none := by
        intro i hi
        cases i with
        | zero => rw [Nat.add_zero]; exact hnn
        | succ j =>
          have h := hnull j (by omega)
          rw [show fuel + (j+1) = fuel + 1 + j from by omega]
          exact h
      have harith : fuel + 1 + e = fuel + (e + 1) := by omega
      rw [harith, ih (e+1) b (by omega) hnull']
      rw [colSeg_snoc]
      have h0 : typeAt b (0 + fuel) x = none := by rw [Nat.zero_add]; exact hnn
      rw [h0, List.count_append, List.reduceOption_append]
      have hcn : List.count (none : Option GemType) [(none : Option GemType)] = 1 := by decide
      have hrn : ([(none : Option GemType)]).reduceOption = [] := by decide
      rw [hcn, hrn, List.append_nil]
      congr 2
      omega
    · rename_i hnn
      rcases ho : typeAt b fuel x with _ | t
      · exact absurd ho hnn
      split
      · -- the current gem falls by `emptySpots` rows
        rename_i he
        have hfe8 : fuel + e < 8 := by omega
        have hf8 : fuel < 8 := by omega
        set gm := gemAt b fuel x with hgm
        set b1 := setG b (fuel + e) x { gm with x := x, y := fuel + e } with hb1
        set b2 := setG b1 fuel x { gm with type := none } with hb2
        have hnull2 : ∀ i, i < e → typeAt b2 (fuel + i) x = none := by
          intro i hi
          cases i with
          | zero =>
            rw [Nat.add_zero, hb2, typeAt_setG_self b1 fuel x _ hf8 hx]
          | succ j =>
            rw [hb2, typeAt_setG_ne b1 fuel x _ (fuel + (j+1)) x (by omega),
              hb1, typeAt_setG_ne b (fuel+e) x _ (fuel + (j+1)) x (by omega)]
            have h := hnull j (by omega)
            rw [show fuel + (j+1) = fuel + 1 + j from by omega]
            exact h
        have hseg2 : colSeg b2 x 0 fuel = colSeg b x 0 fuel := by
          apply colSeg_congr
          intro i hi
          rw [hb2, typeAt_setG_ne b1 fuel x _ (0 + i) x (by omega),
            hb1, typeAt_setG_ne b (fuel+e) x _ (0 + i) x (by omega)]
        have hTY : typeAt (compactAux x fuel e b2).1 (fuel + e) x = some t := by
          rw [typeAt_compactAux_untouched x fuel e b2 (fuel+e) x (by omega)]
          rw [hb2, typeAt_setG_ne b1 fuel x _ (fuel + e) x (by omega)]
          rw [hb1, typeAt_setG_self b (fuel+e) x _ hfe8 hx]
          exact ho
        have harith : fuel + 1 + e = (fuel + e) + 1 := by omega
        rw [harith, colSeg_snoc, Nat.zero_add (fuel + e), hTY, ih e b2 (by omega) hnull2, hseg2]
        rw [colSeg_snoc, Nat.zero_add fuel, ho, List.count_append, List.reduceOption_append]
        have hcn : ∀ u : GemType, List.count (none : Option GemType) [some u] = 0 := by
          intro u
          simp
        have hrn : ∀ u : GemType, ([some u] : List (Option GemType)).reduceOption = [u] := by
          intro u
          simp
        rw [hcn t, hrn t, List.map_append, ← List.append_assoc]
        congr 2
      · -- emptySpots = 0: the gem stays in place
        rename_i he
        have he0 : e = 0 := by omega
        subst he0
        have hTY : typeAt (compactAux x fuel 0 b).1 fuel x = some t := by
          rw [typeAt_compactAux_untouched x fuel 0 b fuel x (by omega)]
          exact ho
        have harith : fuel + 1 + 0 = fuel + 1 := by omega
        rw [harith, colSeg_snoc, Nat.zero_add fuel, hTY]
        have hih := ih 0 b (by omega) (by intro i hi; omega)
        rw [Nat.add_zero] at hih
        rw [hih]
        rw [colSeg_snoc, Nat.zero_add fuel, ho, List.count_append, List.reduceOption_append]
        have hcn : List.count (none : Option GemType) [some t] = 0 := by simp
        have hrn : ([some t] : List (Option GemType)).reduceOption = [t] := by simp
        rw [hcn, hrn, List.map_append, ← List.append_assoc]
        congr 2

theorem refillAux_untouched (x : Nat) :
    ∀ rem y s b y' x', (x' ≠ x ∨ y' < y ∨ y + rem ≤ y') →
      gemAt (refillAux x y rem s b).1 y' x' = gemAt b y' x' := by
  intro rem
  induction rem with
  | zero => intro y s b y' x' _; rfl
  | succ rem ih =>
    intro y s b y' x' h
    rw [refillAux]
    rw [ih (y+1) _ _ y' x' (by omega)]
    rw [gemAt_setG_ne _ _ _ _ _ _ (by omega)]

theorem typeAt_refillAux_untouched (x rem y : Nat) (s : RNG) (b : Board) (y' x' : Nat)
    (h : x' ≠ x ∨ y' < y ∨ y + rem ≤ y') :
    typeAt (refillAux x y rem s b).1 y' x' = typeAt b y' x' :=
  congrArg Gem.type (refillAux_untouched x rem y s b y' x' h)

/-- The refill loop writes exactly the next `rem` stream draws, top down. -/
theorem refillAux_spec (x : Nat) (hx : x < 8) :
    ∀ rem y s b, y + rem ≤ 8 →
      colSeg (refillAux x y rem s b).1 x y rem =
        (List.range rem).map (fun i => some (s i)) := by
  intro rem
  induction rem with
  | zero => intro y s b _; rfl
  | succ rem ih =>
    intro y s b hbound
    rw [refillAux, colSeg_cons]
    have hhead : typeAt (refillAux x (y+1) rem (getRandomGemType s).2
        (setG b y x { x := x, y := y, type := some (getRandomGemType s).1 })).1 y x
        = some (s 0) := by
      rw [typeAt_refillAux_untouched x rem (y+1) _ _ y x (by omega)]
      rw [typeAt_setG_self b y x _ (by omega) hx]
      rfl
    rw [hhead, ih (y+1) _ _ (by omega)]
    rw [List.range_succ_eq_map, List.map_cons, List.map_map]
    rfl

theorem refillAux_snd (x : Nat) :
    ∀ rem y s b, (refillAux x y rem s b).2 = fun n => s (n + rem) := by
  intro rem
  induction rem with
  | zero =>
    intro y s b
    funext n
    rfl
  | succ rem ih =>
    intro y s b
    rw [refillAux, ih (y+1)]
    rfl

/-- A column without empty cells is not moved by compaction at all. -/
theorem compactAux_nochange (x : Nat) :
    ∀ fuel b, (∀ i, i < fuel → typeAt b i x ≠ none) → compactAux x fuel 0 b = (b, 0) := by
  intro fuel
  induction fuel with
  | zero => intro b _; rfl
  | succ fuel ih =>
    intro b hocc
    rw [compactAux]
    rw [if_neg (hocc fuel (by omega))]
    rw [if_neg (by omega : ¬ 0 < 0)]
    exact ih b (fun i hi => hocc i (by omega))

theorem collapseCols_untouched :
    ∀ f x0 s b x', x' < x0 →
      ∀ y', gemAt (collapseCols x0 f s b).1 y' x' = gemAt b y' x' := by
  intro f
  induction f with
  | zero => intro x0 s b x' _ y'; rfl
  | succ f ih =>
    intro x0 s b x' hx y'
    rw [collapseCols]
    rw [ih (x0+1) _ _ x' (by omega) y']
    rw [refillAux_untouched x0 _ _ _ _ _ _ (Or.inl (by omega))]
    rw [compactAux_untouched x0 _ _ _ _ _ (Or.inl (by omega))]

theorem colSeg_split_at (b : Board) (x e : Nat) (he : e ≤ 8) :
    colSeg b x 0 8 = colSeg b x 0 e ++ colSeg b x e (8 - e) := by
  have h := colSeg_split b x 0 e (8 - e)
  rw [Nat.zero_add] at h
  rw [show e + (8 - e) = 8 from by omega] at h
  exact h

/-- Collapse, per column: the column becomes `emptySpots` fresh draws on top
followed by the column's surviving tokens in their original order; a column
with no empty cells is left unchanged. -/
theorem collapseCols_spec :
    ∀ f x0 s b x, x0 ≤ x → x < x0 + f → x < 8 →
      ∃ s' : RNG,
        colSeg (collapseCols x0 f s b).1 x 0 8 =
          (List.range ((colSeg b x 0 8).count none)).map (fun i => some (s' i)) ++
            ((colSeg b x 0 8).reduceOption).map some ∧
        ((colSeg b x 0 8).count none = 0 →
          ∀ y, y < 8 → gemAt (collapseCols x0 f s b).1 y x = gemAt b y x) := by
  intro f
  induction f with
  | zero => intro x0 s b x h1 h2 _; omega
  | succ f ih =>
    intro x0 s b x h1 h2 hx8
    rw [collapseCols]
    rcases Nat.eq_or_lt_of_le h1 with he | hlt
    · subst he
      set e := (compactAux x0 8 0 b).2 with hedef
      set pb := (compactAux x0 8 0 b).1 with hpbdef
      have hcount : e = (colSeg b x0 0 8).count none := by
        rw [hedef, compactAux_snd x0 8 0 b (le_refl 8), Nat.zero_add]
      have hsum := count_none_add_reduceOption (colSeg b x0 0 8)
      rw [colSeg_length] at hsum
      have he8 : e ≤ 8 := by omega
      have hcompact : colSeg pb x0 0 8 =
          List.replicate e none ++ ((colSeg b x0 0 8).reduceOption).map some := by
        have h := compactAux_spec x0 hx8 8 0 b (by omega) (by intro i hi; omega)
        rw [Nat.add_zero] at h
        rw [hpbdef, h, Nat.zero_add, hcount]
      set q := refillAux x0 0 e s pb with hqdef
      have hfresh : colSeg q.1 x0 0 e = (List.range e).map (fun i => some (s i)) := by
        rw [hqdef]
        exact refillAux_spec x0 hx8 e 0 s pb (by omega)
      have htail : colSeg q.1 x0 e (8 - e) = colSeg pb x0 e (8 - e) := by
        apply colSeg_congr
        intro i hi
        rw [hqdef, typeAt_refillAux_untouched x0 e 0 s pb (e + i) x0 (by omega)]
      have hsplitp : colSeg pb x0 0 8 = colSeg pb x0 0 e ++ colSeg pb x0 e (8 - e) :=
        colSeg_split_at pb x0 e he8
      have hocc : colSeg pb x0 e (8 - e) = ((colSeg b x0 0 8).reduceOption).map some := by
        have hinj := List.append_inj (hsplitp.symm.trans hcompact)
          (by rw [colSeg_length, List.length_replicate])
        exact hinj.2
      have hsplitq : colSeg q.1 x0 0 8 = colSeg q.1 x0 0 e ++ colSeg q.1 x0 e (8 - e) :=
        colSeg_split_at q.1 x0 e he8
      have hfinalcol : ∀ y', gemAt (collapseCols (x0+1) f q.2 q.1).1 y' x0 = gemAt q.1 y' x0 :=
        fun y' => collapseCols_untouched f (x0+1) q.2 q.1 x0 (by omega) y'
      have hcolfin : colSeg (collapseCols (x0+1) f q.2 q.1).1 x0 0 8 = colSeg q.1 x0 0 8 := by
        apply colSeg_congr
        intro i _
        exact congrArg Gem.type (hfinalcol (0 + i))
      refine ⟨s, ?_, ?_⟩
      · rw [hcolfin, hsplitq, hfresh, htail, hocc, hcount]
      · intro hzero
        intro y hy
        have hocc8 : ∀ i, i < 8 → typeAt b i x0 ≠ none := by
          intro i hi hnone
          have hmem : (none : Option GemType) ∈ colSeg b x0 0 8 := by
            rw [colSeg]
            apply List.mem_map.mpr
            refine ⟨i, List.mem_range.mpr hi, ?_⟩
            rw [Nat.zero_add]
            exact hnone
          rw [← List.count_pos_iff] at hmem
          omega
        have hnc : compactAux x0 8 0 b = (b, 0) := compactAux_nochange x0 8 b hocc8
        have he0 : e = 0 := by rw [hedef, hnc]
        have hpb : pb = b := by rw [hpbdef, hnc]
        have hq1 : q.1 = b := by
          rw [hqdef, he0, hpb]
          rfl
        rw [hfinalcol y, hq1]
    · -- the processed column x0 is not x: its processing leaves column x alone
      set p := compactAux x0 8 0 b with hpdef
      set q := refillAux x0 0 p.2 s p.1 with hqdef
      have hcol : ∀ y', gemAt q.1 y' x = gemAt b y' x := by
        intro y'
        rw [hqdef, refillAux_untouched x0 p.2 0 s p.1 y' x (Or.inl (by omega))]
        rw [hpdef, compactAux_untouched x0 8 0 b y' x (Or.inl (by omega))]
      have hseg : colSeg q.1 x 0 8 = colSeg b x 0 8 := by
        apply colSeg_congr
        intro i _
        exact congrArg Gem.type (hcol (0 + i))
      obtain ⟨s', hs1, hs2⟩ := ih (x0+1) q.2 q.1 x hlt (by omega) hx8
      refine ⟨s', ?_, ?_⟩
      · rw [hs1, hseg]
      · intro hzero y hy
        rw [hs2 (by rw [hseg]; exact hzero) y hy, hcol y]

/-- Collapse conservation at the level of `collapseBoard`, for one column. -/
theorem collapseBoard_col (b : Board) (s : RNG) (x : Nat) (hx : x < 8) :
    ∃ s' : RNG,
      colSeg (collapseBoard b s).1 x 0 8 =
        (List.range ((colSeg b x 0 8).count none)).map (fun i => some (s' i)) ++
          ((colSeg b x 0 8).reduceOption).map some ∧
      ((colSeg b x 0 8).count none = 0 →
        ∀ y, y < 8 → gemAt (collapseBoard b s).1 y x = gemAt b y x) :=
  collapseCols_spec 8 0 s b x (Nat.zero_le x) (by omega) hx

theorem typeAt_mem_colSeg (b : Board) (y x : Nat) (hy : y < 8) :
    typeAt b y x ∈ colSeg b x 0 8 := by
  rw [colSeg]
  apply List.mem_map.mpr
  refine ⟨y, List.mem_range.mpr hy, ?_⟩
  rw [Nat.zero_add]

/-- After a collapse every cell of the grid is occupied. -/
theorem collapseBoard_full (b : Board) (s : RNG) (y x : Nat) (hy : y < 8) (hx : x < 8) :
    (typeAt (collapseBoard b s).1 y x).isSome = true := by
  obtain ⟨s', hcol, _⟩ := collapseBoard_col b s x hx
  have hmem := typeAt_mem_colSeg (collapseBoard b s).1 y x hy
  rw [hcol] at hmem
  rcases List.mem_append.mp hmem with h | h
  · obtain ⟨i, _, hi⟩ := List.mem_map.mp h
    rw [← hi]
    rfl
  · obtain ⟨t, _, ht⟩ := List.mem_map.mp h
    rw [← ht]
    rfl

/-! ### Coherence of stored coordinates -/

theorem coherent_iff (b : Board) :
    coherent b ↔ ∀ y x : Nat, y < 8 → x < 8 → (gemAt b y x).x = x ∧ (gemAt b y x).y = y := by
  constructor
  · intro h y x hy hx
    have := h ⟨y, hy⟩ ⟨x, hx⟩
    rw [gemAt, dif_pos (And.intro hy hx)]
    exact this
  · intro h y x
    have := h y.val x.val y.isLt x.isLt
    rw [gemAt, dif_pos (And.intro y.isLt x.isLt)] at this
    exact this

theorem coherent_setG {b : Board} {y x : Nat} {g : Gem} (hb : coherent b)
    (hg : g.x = x ∧ g.y = y) : coherent (setG b y x g) := by
  rw [coherent_iff]
  intro y' x' hy hx
  by_cases he : y = y' ∧ x = x'
  · rw [← he.1, ← he.2, gemAt_setG_self b y x g (he.1 ▸ hy) (he.2 ▸ hx)]
    exact ⟨he.2 ▸ hg.1, he.1 ▸ hg.2⟩
  · have hne : y ≠ y' ∨ x ≠ x' := Decidable.not_and_iff_or_not.mp he
    rw [gemAt_setG_ne b y x g y' x' hne]
    exact (coherent_iff b).mp hb y' x' hy hx

theorem coherent_gemAt {b : Board} (hb : coherent b) {y x : Nat} (hy : y < 8) (hx : x < 8) :
    (gemAt b y x).x = x ∧ (gemAt b y x).y = y :=
  (coherent_iff b).mp hb y x hy hx

theorem coherent_emptyBoard : coherent emptyBoard := by
  intro y x
  rw [emptyBoard, Mathlib.Vector.get_ofFn, Mathlib.Vector.get_ofFn]
  exact ⟨rfl, rfl⟩

theorem coherent_compactAux (x : Nat) :
    ∀ fuel e b, coherent b → coherent (compactAux x fuel e b).1 := by
  intro fuel
  induction fuel with
  | zero => intro e b hb; exact hb
  | succ fuel ih =>
    intro e b hb
    rw [compactAux]
    split
    · exact ih (e+1) b hb
    · split
      · apply ih e
        apply coherent_setG
        · apply coherent_setG hb
          exact ⟨rfl, rfl⟩
        · constructor
          · by_cases hin : fuel < 8 ∧ x < 8
            · exact (coherent_gemAt hb hin.1 hin.2).1
            · rw [gemAt, dif_neg hin]
          · by_cases hin : fuel < 8 ∧ x < 8
            · exact (coherent_gemAt hb hin.1 hin.2).2
            · rw [gemAt, dif_neg hin]
      · exact ih e b hb

theorem coherent_refillAux (x : Nat) :
    ∀ rem y s b, coherent b → coherent (refillAux x y rem s b).1 := by
  intro rem
  induction rem with
  | zero => intro y s b hb; exact hb
  | succ rem ih =>
    intro y s b hb
    rw [refillAux]
    exact ih (y+1) _ _ (coherent_setG hb ⟨rfl, rfl⟩)

theorem coherent_collapseCols :
    ∀ f x0 s b, coherent b → coherent (collapseCols x0 f s b).1 := by
  intro f
  induction f with
  | zero => intro x0 s b hb; exact hb
  | succ f ih =>
    intro x0 s b hb
    rw [collapseCols]
    exact ih (x0+1) _ _ (coherent_refillAux x0 _ 0 _ _ (coherent_compactAux x0 8 0 b hb))

/-- Collapse preserves coordinate/storage coherence. -/
theorem coherent_collapseBoard (b : Board) (s : RNG) (hb : coherent b) :
    coherent (collapseBoard b s).1 :=
  coherent_collapseCols 8 0 s b hb

/-- removeMatches preserves coordinate/storage coherence. -/
theorem coherent_removeMatches (gs : List Gem) :
    ∀ b, coherent b → coherent (removeMatches b gs) := by
  induction gs with
  | nil => intro b hb; exact hb
  | cons g gs ih =>
    intro b hb
    show coherent (removeMatches (setG b g.y g.x { gemAt b g.y g.x with type := none }) gs)
    apply ih
    apply coherent_setG hb
    constructor
    · by_cases hin : g.y < 8 ∧ g.x < 8
      · exact (coherent_gemAt hb hin.1 hin.2).1
      · rw [gemAt, dif_neg hin]
    · by_cases hin : g.y < 8 ∧ g.x < 8
      · exact (coherent_gemAt hb hin.1 hin.2).2
      · rw [gemAt, dif_neg hin]

/-! ### removeMatches empties exactly the listed cells -/

theorem removeMatches_typeAt (gs : List Gem) :
    ∀ b y x, y < 8 → x < 8 →
      typeAt (removeMatches b gs) y x =
        if ∃ g ∈ gs, g.y = y ∧ g.x = x then none else typeAt b y x := by
  induction gs with
  | nil =>
    intro b y x _ _
    rw [if_neg (by simp)]
    rfl
  | cons g gs ih =>
    intro b y x hy hx
    show typeAt (removeMatches (setG b g.y g.x { gemAt b g.y g.x with type := none }) gs) y x = _
    rw [ih _ y x hy hx]
    by_cases htail : ∃ g' ∈ gs, g'.y = y ∧ g'.x = x
    · rw [if_pos htail, if_pos (by obtain ⟨g', hg1, hg2⟩ := htail; exact ⟨g', List.mem_cons_of_mem g hg1, hg2⟩)]
    · rw [if_neg htail]
      by_cases hhead : g.y = y ∧ g.x = x
      · rw [if_pos ⟨g, List.mem_cons_self g gs, hhead⟩]
        rw [hhead.1, hhead.2, typeAt_setG_self b y x _ hy hx]
      · rw [if_neg (by
          rintro ⟨g', hmem, hco⟩
          rcases List.mem_cons.mp hmem with rfl | hmem'
          · exact hhead hco
          · exact htail ⟨g', hmem', hco⟩)]
        exact typeAt_setG_ne b g.y g.x _ y x (Decidable.not_and_iff_or_not.mp hhead)

/-- On a coherent board, a gem of `findMatches` sits at cell (y, x) exactly
when that cell is marked. -/
theorem findMatches_pos_iff (b : Board) (hb : coherent b) (y x : Nat) :
    (∃ g ∈ findMatches b, g.y = y ∧ g.x = x) ↔ getM (allMarks b) y x = true := by
  constructor
  · rintro ⟨g, hmem, hgy, hgx⟩
    rw [findMatches_eq] at hmem
    obtain ⟨p, hp, hgp⟩ := List.mem_map.mp hmem
    have hmark := (mem_matchedPositions b p).mp hp
    obtain ⟨h1, h2⟩ := getM_true_bounds hmark
    have hco := coherent_gemAt hb h1 h2
    have hpy : p.1 = y := by rw [← hgy, ← hgp]; exact hco.2.symm
    have hpx : p.2 = x := by rw [← hgx, ← hgp]; exact hco.1.symm
    rw [← hpy, ← hpx]
    exact hmark
  · intro hmark
    obtain ⟨h1, h2⟩ := getM_true_bounds hmark
    refine ⟨gemAt b y x, ?_, (coherent_gemAt hb h1 h2).2, (coherent_gemAt hb h1 h2).1⟩
    rw [findMatches_eq]
    apply List.mem_map.mpr
    exact ⟨(y, x), (mem_matchedPositions b (y, x)).mpr hmark, rfl⟩

/-- On a coherent board, removing the found matches empties exactly the
marked cells and leaves every other cell's type unchanged. -/
theorem removeMatches_findMatches (b : Board) (hb : coherent b) (y x : Nat)
    (hy : y < 8) (hx : x < 8) :
    typeAt (removeMatches b (findMatches b)) y x =
      if getM (allMarks b) y x = true then none else typeAt b y x := by
  rw [removeMatches_typeAt (findMatches b) b y x hy hx]
  by_cases h : getM (allMarks b) y x = true
  · rw [if_pos h, if_pos ((findMatches_pos_iff b hb y x).mpr h)]
  · rw [if_neg h, if_neg (fun hc => h ((findMatches_pos_iff b hb y x).mp hc))]

/-! ### The cascade loop -/

/-- The fueled cascade loop returns exactly when some iterate of
detect→remove→collapse within the fuel bound is match-free. -/
theorem runCascade_isSome_iff :
    ∀ fuel b s sc, (runCascade fuel b s sc).isSome = true ↔
      ∃ n, n ≤ fuel ∧ findMatches ((stepC^[n] (b, s)).1) = [] := by
  intro fuel
  induction fuel with
  | zero =>
    intro b s sc
    rw [runCascade]
    split
    · rename_i h
      simp only [Option.isSome_some, true_iff]
      exact ⟨0, le_refl 0, by rw [Function.iterate_zero_apply]; exact h⟩
    · rename_i h
      simp only [Option.isSome_none, Bool.false_eq_true, false_iff]
      rintro ⟨n, hn, hmf⟩
      have hn0 : n = 0 := by omega
      subst hn0
      rw [Function.iterate_zero_apply] at hmf
      exact h hmf
  | succ fuel ih =>
    intro b s sc
    rw [runCascade]
    split
    · rename_i h
      simp only [Option.isSome_some, true_iff]
      exact ⟨0, Nat.zero_le _, by rw [Function.iterate_zero_apply]; exact h⟩
    · rename_i h
      show (runCascade fuel (stepC (b, s)).1 (stepC (b, s)).2 _).isSome = true ↔ _
      rw [ih]
      constructor
      · rintro ⟨n, hn, hmf⟩
        refine ⟨n+1, by omega, ?_⟩
        rw [Function.iterate_succ_apply]
        rw [Prod.mk.eta] at hmf
        exact hmf
      · rintro ⟨n, hn, hmf⟩
        cases n with
        | zero =>
          rw [Function.iterate_zero_apply] at hmf
          exact absurd hmf h
        | succ m =>
          refine ⟨m, by omega, ?_⟩
          rw [Function.iterate_succ_apply] at hmf
          rw [Prod.mk.eta]
          exact hmf

/-- Score accounting of the cascade loop: the final score is the initial
score plus 100 per matched cell per iteration, over the iterations actually
performed. -/
theorem runCascade_score :
    ∀ fuel b s sc b' s' sc', runCascade fuel b s sc = some (b', s', sc') →
      ∃ n, n ≤ fuel ∧ findMatches ((stepC^[n] (b, s)).1) = [] ∧
        sc' = sc + 100 * ((List.range n).map
          (fun i => (findMatches ((stepC^[i] (b, s)).1)).length)).sum := by
  intro fuel
  induction fuel with
  | zero =>
    intro b s sc b' s' sc' h
    rw [runCascade] at h
    split at h
    · rename_i hmf
      cases h
      exact ⟨0, le_refl 0, by rw [Function.iterate_zero_apply]; exact hmf, by simp⟩
    · exact absurd h (by simp)
  | succ fuel ih =>
    intro b s sc b' s' sc' h
    rw [runCascade] at h
    split at h
    · rename_i hmf
      cases h
      exact ⟨0, Nat.zero_le _, by rw [Function.iterate_zero_apply]; exact hmf, by simp⟩
    · rename_i hmf
      have h' : runCascade fuel (stepC (b, s)).1 (stepC (b, s)).2
          (sc + (findMatches b).length * 100) = some (b', s', sc') := h
      obtain ⟨n, hn, hend, hsc⟩ := ih _ _ _ b' s' sc' h'
      rw [Prod.mk.eta] at hend hsc
      refine ⟨n+1, by omega, ?_, ?_⟩
      · rw [Function.iterate_succ_apply]
        exact hend
      · rw [List.range_succ_eq_map, List.map_cons, List.map_map, List.sum_cons]
        rw [Function.iterate_zero_apply]
        have hshift : List.map ((fun i => (findMatches ((stepC^[i] (b, s)).1)).length) ∘ Nat.succ)
            (List.range n) =
            List.map (fun i => (findMatches ((stepC^[i] (stepC (b, s))).1)).length)
            (List.range n) := by
          apply List.map_congr_left
          intro i _
          show (findMatches ((stepC^[i+1] (b, s)).1)).length = _
          rw [Function.iterate_succ_apply]
        rw [hshift, hsc]
        ring

/-! ### Coherence and occupancy of the initial board -/

theorem coherent_initCells (y fuel : Nat) :
    ∀ rem x b s b' s', coherent b → initCells y fuel x rem s b = some (b', s') →
      coherent b' := by
  intro rem
  induction rem with
  | zero =>
    intro x b s b' s' hb h
    rw [initCells] at h
    cases h
    exact hb
  | succ rem ih =>
    intro x b s b' s' hb h
    rw [initCells] at h
    split at h
    · exact absurd h (by simp)
    · rename_i g1 s1 hdraw
      exact ih (x+1) (setG b y x { x := x, y := y, type := some g1 }) s1 b' s'
        (coherent_setG hb ⟨rfl, rfl⟩) h

theorem coherent_initRows (fuel : Nat) :
    ∀ rem y b s b' s', coherent b → initRows fuel y rem s b = some (b', s') →
      coherent b' := by
  intro rem
  induction rem with
  | zero =>
    intro y b s b' s' hb h
    rw [initRows] at h
    cases h
    exact hb
  | succ rem ih =>
    intro y b s b' s' hb h
    rw [initRows] at h
    split at h
    · exact absurd h (by simp)
    · rename_i b1 s1 hrow
      exact ih (y+1) b1 s1 b' s' (coherent_initCells y fuel 8 0 b s b1 s1 hb hrow) h

theorem coherent_initBoard {s : RNG} {fuel : Nat} {b : Board}
    (h : initBoard s fuel = some b) : coherent b := by
  rw [initBoard] at h
  rcases ho : initRows fuel 0 8 s emptyBoard with _ | p
  · rw [ho] at h
    exact absurd h (by simp)
  · rw [ho] at h
    have hb : p.1 = b := by simpa using h
    have := coherent_initRows fuel 8 0 emptyBoard s p.1 p.2 coherent_emptyBoard (by rw [ho])
    exact hb ▸ this

theorem initBoard_full {s : RNG} {fuel : Nat} {b : Board}
    (h : initBoard s fuel = some b) {y x : Nat} (hy : y < 8) (hx : x < 8) :
    (typeAt b y x).isSome = true :=
  ((initBoard_builtOK h) y x hy hx (Or.inl hy)).1

/-! ### The safe-draw rejection loop -/

/-- At most two of the five types are excluded, so an acceptable type exists. -/
theorem gemOK_exists (b : Board) (x y : Nat) : ∃ g : GemType, gemOK b x y g := by
  have h5 : ∀ a c : Option GemType, ∃ g : GemType, a ≠ some g ∧ c ≠ some g := by decide
  obtain ⟨g, hg1, hg2⟩ := h5 (typeAt b y (x-1)) (typeAt b (y-1) x)
  exact ⟨g, fun h => hg1 h.2.1, fun h => hg2 h.2.1⟩

/-- The rejection loop returns as soon as the stream offers an acceptable
draw within the fuel bound. -/
theorem getSafeRandomGem_terminates (b : Board) (x y : Nat) :
    ∀ fuel s, (∃ i, i < fuel ∧ gemOK b x y (s i)) →
      (getSafeRandomGem b x y fuel s).isSome = true := by
  intro fuel
  induction fuel with
  | zero => rintro s ⟨i, hi, _⟩; omega
  | succ fuel ih =>
    rintro s ⟨i, hi, hok⟩
    rw [getSafeRandomGem]
    by_cases h0 : gemOK b x y (getRandomGemType s).1
    · rw [if_pos h0]
      rfl
    · rw [if_neg h0]
      apply ih
      cases i with
      | zero => exact absurd hok h0
      | succ j => exact ⟨j, by omega, hok⟩

/-! ### Concrete fixtures -/

/-- The deterministic cycling draw stream 0,1,2,3,4,0,1,... -/
def cyc : RNG := fun n => ⟨n % 5, by omega⟩

/-- The adversarial constant draw stream 0,0,0,... -/
def const0 : RNG := fun _ => (0 : GemType)

/-- A fully occupied board carrying only type 0 everywhere. -/
def allZeroBoard : Board :=
  Mathlib.Vector.ofFn (fun y : Idx => Mathlib.Vector.ofFn
    (fun x : Idx => { x := x.val, y := y.val, type := some 0 }))

/-- All type 0 except one type-1 gem at (x=1, y=7): a fixed point of the
cascade body under the constant-0 stream. -/
def bStar : Board :=
  Mathlib.Vector.ofFn (fun y : Idx => Mathlib.Vector.ofFn (fun x : Idx =>
    { x := x.val
      y := y.val
      type := some (if y.val = 7 ∧ x.val = 1 then 1 else 0) }))

/-- All type 0 except one type-1 gem at (x=0, y=7): swapping it right is an
accepted move whose post-swap board is `bStar`. -/
def preBoard : Board :=
  Mathlib.Vector.ofFn (fun y : Idx => Mathlib.Vector.ofFn (fun x : Idx =>
    { x := x.val
      y := y.val
      type := some (if y.val = 7 ∧ x.val = 0 then 1 else 0) }))

/-- The selected gem of `preBoard` at (x=0, y=7). -/
def selStar : Gem := { x := 0, y := 7, type := some 1 }

/-- A match-free patterned board with one horizontal triple of type 3 in the
top row (cells (2,0), (3,0), (4,0)). -/
def bW : Board :=
  Mathlib.Vector.ofFn (fun y : Idx => Mathlib.Vector.ofFn (fun x : Idx =>
    { x := x.val
      y := y.val
      type := some (if y.val = 0 ∧ (x.val = 2 ∨ x.val = 3 ∨ x.val = 4) then (3 : GemType)
        else ⟨(x.val + 2 * y.val) % 5, by omega⟩) }))

/-- The stuck rejection loop: on `allZeroBoard` at cell (x=2, y=0) the
constant-0 stream is rejected forever. -/
theorem getSafeRandomGem_const0_stuck :
    ∀ fuel, getSafeRandomGem allZeroBoard 2 0 fuel const0 = none := by
  intro fuel
  induction fuel with
  | zero => rfl
  | succ fuel ih =>
    rw [getSafeRandomGem]
    rw [if_neg (by decide)]
    exact ih

theorem collapseCols_snd_const0 : ∀ f x0 b, (collapseCols x0 f const0 b).2 = const0 := by
  intro f
  induction f with
  | zero => intro x0 b; rfl
  | succ f ih =>
    intro x0 b
    rw [collapseCols]
    rw [refillAux_snd]
    have hc : (fun n => const0 (n + (compactAux x0 8 0 b).2)) = const0 := by
      funext n
      rfl
    rw [hc]
    exact ih (x0+1) _

theorem stepC_bStar_fix : stepC (bStar, const0) = (bStar, const0) := by
  have h1 : (stepC (bStar, const0)).1 = bStar := by decide
  have h2 : (stepC (bStar, const0)).2 = const0 := collapseCols_snd_const0 8 0 _
  calc stepC (bStar, const0)
      = ((stepC (bStar, const0)).1, (stepC (bStar, const0)).2) := Prod.mk.eta.symm
    _ = (bStar, const0) := by rw [h1, h2]

theorem stepC_iter_bStar : ∀ n, stepC^[n] (bStar, const0) = (bStar, const0) := by
  intro n
  induction n with
  | zero => rfl
  | succ n ih => rw [Function.iterate_succ_apply, stepC_bStar_fix, ih]

/-! ### The claims -/

/-- Every cell of the board holds a token. -/
def fullBoard (b : Board) : Prop :=
  ∀ y : Nat, y < 8 → ∀ x : Nat, x < 8 → (typeAt b y x).isSome = true

instance (b : Board) : Decidable (fullBoard b) := by
  unfold fullBoard
  infer_instance

instance (b : Board) : Decidable (coherent b) := by
  unfold coherent
  infer_instance

theorem swapGuard_spec {sel : Gem} {nx ny : Int} (h : swapGuard sel nx ny = true) :
    0 ≤ nx ∧ nx < 8 ∧ 0 ≤ ny ∧ ny < 8 ∧
      (((nx - (sel.x : Int)).natAbs = 1 ∧ (ny - (sel.y : Int)).natAbs = 0) ∨
       ((nx - (sel.x : Int)).natAbs = 0 ∧ (ny - (sel.y : Int)).natAbs = 1)) ∧
      (nx ≠ (sel.x : Int) ∨ ny ≠ (sel.y : Int)) := of_decide_eq_true h

/-- Claim C1: whenever board initialization terminates, the board produced by
`initBoard` (8×8, 5 token types) contains no run of three or more identical
adjacent tokens in any row or column: `findMatches` on it returns the empty
set. -/
theorem C1_init_board_match_free (s : RNG) (fuel : Nat) (b : Board)
    (h : initBoard s fuel = some b) : findMatches b = [] := by
  have hOK := initBoard_builtOK h
  apply findMatches_nil_of_noTriples
  intro y x hy hx
  have hc := hOK y x hy hx (Or.inl hy)
  exact ⟨hc.2.1, hc.2.2⟩

theorem C1_witness : (initBoard cyc 8).isSome = true ∧
    findMatches ((initBoard cyc 8).getD emptyBoard) = [] := by
  have hs : (initBoard cyc 8).isSome = true := by decide
  refine ⟨hs, ?_⟩
  obtain ⟨b, hb⟩ := Option.isSome_iff_exists.mp hs
  rw [hb, Option.getD_some]
  exact C1_init_board_match_free cyc 8 b hb

/-- Claim C2: on a fully occupied board, an in-bounds adjacent swap of
distinct cells is accepted exactly when, on the post-swap board, a contiguous
run of 3 or more identical tokens lies along the row or column of one of the
two swapped cells and passes through that cell's new position; nothing but
these local line facts decides acceptance. -/
theorem C2_validator_locality (b : Board) (sel : Gem) (nx ny : Int)
    (hfull : fullBoard b) (hsel : gemAt b sel.y sel.x = sel)
    (hy : sel.y < 8) (hx : sel.x < 8) (hguard : swapGuard sel nx ny = true) :
    (swapAccepted b sel nx ny = true ↔
      ((inRunV (swappedBoard b sel nx.toNat ny.toNat) ny.toNat nx.toNat ∨
        inRunH (swappedBoard b sel nx.toNat ny.toNat) ny.toNat nx.toNat) ∨
       (inRunV (swappedBoard b sel nx.toNat ny.toNat) sel.y sel.x ∨
        inRunH (swappedBoard b sel nx.toNat ny.toNat) sel.y sel.x))) := by
  obtain ⟨hnx0, hnx8, hny0, hny8, hadj, hne⟩ := swapGuard_spec hguard
  have hnyy8 : ny.toNat < 8 := by omega
  have hnxx8 : nx.toNat < 8 := by omega
  have hnepos : ny.toNat ≠ sel.y ∨ nx.toNat ≠ sel.x := by
    rcases hne with h | h
    · exact Or.inr (by omega)
    · exact Or.inl (by omega)
  have hselt : (typeAt b sel.y sel.x).isSome = true := hfull sel.y hy sel.x hx
  rcases hst : sel.type with _ | t
  · exfalso
    have hts : typeAt b sel.y sel.x = sel.type := by rw [typeAt, hsel]
    rw [hts, hst] at hselt
    exact absurd hselt (by simp)
  · have htargt : (typeAt b ny.toNat nx.toNat).isSome = true := hfull _ hnyy8 _ hnxx8
    rcases htt : (gemAt b ny.toNat nx.toNat).type with _ | u
    · exfalso
      rw [show typeAt b ny.toNat nx.toNat = (gemAt b ny.toNat nx.toNat).type from rfl,
        htt] at htargt
      exact absurd htargt (by simp)
    · have hcell1 : typeAt (swappedBoard b sel nx.toNat ny.toNat) ny.toNat nx.toNat
          = some t := by
        rw [swappedBoard_type_new b sel nx.toNat ny.toNat hnyy8 hnxx8, hst]
      have hcell2 : typeAt (swappedBoard b sel nx.toNat ny.toNat) sel.y sel.x
          = some u := by
        rw [swappedBoard_type_sel b sel nx.toNat ny.toNat hy hx hnepos]
        exact htt
      have hacc : swapAccepted b sel nx ny =
          (hasChainOfThree (swappedBoard b sel nx.toNat ny.toNat) nx.toNat ny.toNat sel.type ||
           hasChainOfThree (swappedBoard b sel nx.toNat ny.toNat) sel.x sel.y
             (gemAt b ny.toNat nx.toNat).type) := by
        rw [swapAccepted, hguard, Bool.true_and]
        rfl
      rw [hacc, hst, htt, Bool.or_eq_true]
      rw [hasChainOfThree_iff _ nx.toNat ny.toNat hcell1]
      rw [hasChainOfThree_iff _ sel.x sel.y hcell2]

theorem C2_witness :
    (swapAccepted bW (gemAt bW 0 1) 1 1 = true ↔
      ((inRunV (swappedBoard bW (gemAt bW 0 1) 1 1) 1 1 ∨
        inRunH (swappedBoard bW (gemAt bW 0 1) 1 1) 1 1) ∨
       (inRunV (swappedBoard bW (gemAt bW 0 1) 1 1) (gemAt bW 0 1).y (gemAt bW 0 1).x ∨
        inRunH (swappedBoard bW (gemAt bW 0 1) 1 1) (gemAt bW 0 1).y (gemAt bW 0 1).x))) :=
  C2_validator_locality bW (gemAt bW 0 1) 1 1 (by decide) (by decide)
    (by decide) (by decide) (by decide)

/-- Claim C3: a rejected swap request leaves board, stream and score exactly
as they were: requests failing the bounds/adjacency guard never mutate, and
an adjacent swap creating no run of 3 through either swapped cell is fully
reverted. -/
theorem C3_rejected_swap_no_change (fuel : Nat) (b : Board) (s : RNG) (score : Nat)
    (sel : Gem) (nx ny : Int) (hsel : gemAt b sel.y sel.x = sel)
    (hrej : swapAccepted b sel nx ny = false) :
    attemptSwap fuel b s score sel nx ny = some (b, s, score) := by
  rw [attemptSwap]
  by_cases hg : swapGuard sel nx ny = true
  · rw [if_pos hg]
    have hcm : canMoveB (swappedBoard b sel nx.toNat ny.toNat) sel
        (gemAt b ny.toNat nx.toNat) nx.toNat ny.toNat = false := by
      rw [swapAccepted, hg, Bool.true_and] at hrej
      exact hrej
    rw [if_neg (by rw [hcm]; exact Bool.false_ne_true)]
    rw [swap_revert b sel nx.toNat ny.toNat hsel]
  · rw [if_neg hg]

theorem C3_witness :
    attemptSwap 0 bW cyc 0 (gemAt bW 0 0) 5 5 = some (bW, cyc, 0) :=
  C3_rejected_swap_no_change 0 bW cyc 0 (gemAt bW 0 0) 5 5 (by decide) (by decide)

/-- Claim C4: `findMatches` marks maximal runs with set semantics: a cell is
collected exactly when it lies on some horizontal or vertical run of length
≥ 3 of one identical non-empty type (so a run of length L contributes all L
cells), each cell appears exactly once, and null cells are never included. -/
theorem C4_match_maximality (b : Board) :
    (∀ p : Nat × Nat, p ∈ matchedPositions b ↔ (inRunH b p.1 p.2 ∨ inRunV b p.1 p.2)) ∧
    (matchedPositions b).Nodup ∧
    findMatches b = (matchedPositions b).map (fun p => gemAt b p.1 p.2) ∧
    (∀ g, g ∈ findMatches b → g.type.isSome = true) := by
  refine ⟨?_, matchedPositions_nodup b, findMatches_eq b, ?_⟩
  · intro p
    rw [mem_matchedPositions, allMarks_iff]
  · intro g hg
    rw [findMatches_eq] at hg
    obtain ⟨p, hp, hgp⟩ := List.mem_map.mp hg
    have hmark := (mem_matchedPositions b p).mp hp
    rw [← hgp]
    exact marked_isSome hmark

theorem C4_witness : (matchedPositions bW).Nodup ∧
    (∀ g, g ∈ findMatches bW → g.type.isSome = true) :=
  ⟨(C4_match_maximality bW).2.1, (C4_match_maximality bW).2.2.2⟩

/-- Claim C5: `collapseBoard` conserves surviving tokens per column: after a
collapse, each column reads, top to bottom, as `emptySpots` freshly drawn
tokens followed by the column's previously occupied tokens in their original
top-to-bottom order, where `emptySpots` is the column's previous number of
empty cells; a column with no empty cells is left unchanged. -/
theorem C5_collapse_conservation (b : Board) (s : RNG) (x : Nat) (hx : x < 8) :
    ∃ s' : RNG,
      colTypes (collapseBoard b s).1 x =
        (List.range ((colTypes b x).count none)).map (fun i => some (s' i)) ++
          ((colTypes b x).reduceOption).map some ∧
      ((colTypes b x).count none = 0 →
        colGems (collapseBoard b s).1 x = colGems b x) := by
  obtain ⟨s', h1, h2⟩ := collapseBoard_col b s x hx
  simp only [colSeg_zero_eight] at h1 h2
  refine ⟨s', h1, ?_⟩
  intro hzero
  unfold colGems
  apply List.map_congr_left
  intro y hy
  exact h2 hzero y (List.mem_range.mp hy)

/-- A patterned board with two holes in column 3, exercising the collapse. -/
def bHole : Board :=
  Mathlib.Vector.ofFn (fun y : Idx => Mathlib.Vector.ofFn (fun x : Idx =>
    { x := x.val
      y := y.val
      type := if x.val = 3 ∧ (y.val = 2 ∨ y.val = 5) then none
        else some ⟨(x.val + 2 * y.val) % 5, by omega⟩ }))

theorem C5_witness : ∃ s' : RNG,
    colTypes (collapseBoard bHole cyc).1 3 =
      (List.range ((colTypes bHole 3).count none)).map (fun i => some (s' i)) ++
        ((colTypes bHole 3).reduceOption).map some ∧
    ((colTypes bHole 3).count none = 0 →
      colGems (collapseBoard bHole cyc).1 3 = colGems bHole 3) :=
  C5_collapse_conservation bHole cyc 3 (by omega)

/-- Claim C6: over one cascade the score increases by exactly 100 per matched
cell per detect pass (no run-length or chain bonus), and no operation ever
decreases the score. -/
theorem C6_score_accounting :
    (∀ fuel b s sc b' s' sc', runCascade fuel b s sc = some (b', s', sc') →
      (∃ n, n ≤ fuel ∧ findMatches ((stepC^[n] (b, s)).1) = [] ∧
        sc' = sc + 100 * ((List.range n).map
          (fun i => (findMatches ((stepC^[i] (b, s)).1)).length)).sum) ∧ sc ≤ sc') ∧
    (∀ fuel b s sc sel nx ny r, attemptSwap fuel b s sc sel nx ny = some r →
      sc ≤ r.2.2) := by
  constructor
  · intro fuel b s sc b' s' sc' h
    obtain ⟨n, hn, hmf, hsc⟩ := runCascade_score fuel b s sc b' s' sc' h
    exact ⟨⟨n, hn, hmf, hsc⟩, by omega⟩
  · intro fuel b s sc sel nx ny r h
    simp only [attemptSwap] at h
    split at h
    · split at h
      · obtain ⟨n, hn, hmf, hsc⟩ := runCascade_score fuel _ s sc r.1 r.2.1 r.2.2
          (by rw [h])
        omega
      · cases h
        exact le_refl sc
    · cases h
      exact le_refl sc

theorem C6_witness : ∃ r, runCascade 2 bW cyc 0 = some r ∧ 0 ≤ r.2.2 ∧
    (∃ n, n ≤ 2 ∧ findMatches ((stepC^[n] (bW, cyc)).1) = [] ∧
      r.2.2 = 0 + 100 * ((List.range n).map
        (fun i => (findMatches ((stepC^[i] (bW, cyc)).1)).length)).sum) := by
  have hs : (runCascade 2 bW cyc 0).isSome = true := by decide
  obtain ⟨r, hr⟩ := Option.isSome_iff_exists.mp hs
  have h := C6_score_accounting.1 2 bW cyc 0 r.1 r.2.1 r.2.2 (by rw [hr])
  exact ⟨r, hr, Nat.zero_le _, h.1⟩

/-- Claim C7: coordinate/storage coherence holds after initialization, is
preserved by the swap, the revert and the collapse, and consequently
`removeMatches (findMatches b)` empties exactly the matched positions. -/
theorem C7_coordinate_coherence :
    (∀ s fuel b, initBoard s fuel = some b → coherent b) ∧
    (∀ b sel nxx nyy, coherent b → coherent (swappedBoard b sel nxx nyy)) ∧
    (∀ b (sel : Gem) nxx nyy, gemAt b sel.y sel.x = sel →
      setG (setG (swappedBoard b sel nxx nyy) nyy nxx (gemAt b nyy nxx)) sel.y sel.x sel
        = b) ∧
    (∀ b s, coherent b → coherent (collapseBoard b s).1) ∧
    (∀ b y x, coherent b → y < 8 → x < 8 →
      typeAt (removeMatches b (findMatches b)) y x =
        if getM (allMarks b) y x = true then none else typeAt b y x) := by
  refine ⟨?_, ?_, ?_, ?_, ?_⟩
  · intro s fuel b h
    exact coherent_initBoard h
  · intro b sel nxx nyy hb
    rw [swappedBoard_def]
    apply coherent_setG
    · apply coherent_setG hb
      exact ⟨rfl, rfl⟩
    · exact ⟨rfl, rfl⟩
  · intro b sel nxx nyy hsel
    exact swap_revert b sel nxx nyy hsel
  · intro b s hb
    exact coherent_collapseBoard b s hb
  · intro b y x hb hy hx
    exact removeMatches_findMatches b hb y x hy hx

theorem C7_witness : coherent (collapseBoard bStar cyc).1 ∧
    typeAt (removeMatches bW (findMatches bW)) 0 2 = none := by
  constructor
  · exact C7_coordinate_coherence.2.2.2.1 bStar cyc (by decide)
  · have h := C7_coordinate_coherence.2.2.2.2 bW 0 2 (by decide) (by omega) (by omega)
    rw [h, if_pos (by decide)]

/-- Claim C8 (counterexample): the rejection loop of `getSafeRandomGem` does
not return for every stream: at a cell whose two left neighbours carry type
0, a stream drawing 0 forever is rejected forever. -/
theorem C8_counterexample :
    ¬ (∃ fuel, (getSafeRandomGem allZeroBoard 2 0 fuel const0).isSome = true) := by
  rintro ⟨fuel, h⟩
  rw [getSafeRandomGem_const0_stuck fuel] at h
  exact absurd h (by simp)

/-- Claim C8 (amended): at most two of the 5 token types are excluded at any
cell, so an acceptable type always exists, and the rejection loop returns for
every stream that offers an acceptable draw within the allotted fuel. -/
theorem C8_safe_draw (b : Board) (x y : Nat) :
    (∃ g : GemType, gemOK b x y g) ∧
    (∀ fuel s, (∃ i, i < fuel ∧ gemOK b x y (s i)) →
      (getSafeRandomGem b x y fuel s).isSome = true) :=
  ⟨gemOK_exists b x y, fun fuel s h => getSafeRandomGem_terminates b x y fuel s h⟩

theorem C8_witness : (getSafeRandomGem allZeroBoard 2 0 3 cyc).isSome = true := by
  exact (C8_safe_draw allZeroBoard 2 0).2 3 cyc ⟨1, by omega, by decide⟩

/-- Claim C9 (counterexample): cascade termination fails for an adversarial
stream: the board reached by an accepted swap on `preBoard` is a fixed point
of detect→remove→collapse under the constant-0 stream, with matches present
forever. -/
theorem C9_counterexample :
    swapAccepted preBoard selStar 1 7 = true ∧
    swappedBoard preBoard selStar 1 7 = bStar ∧
    ¬ cascadeTerminates bStar const0 := by
  refine ⟨by decide, by decide, ?_⟩
  rintro ⟨n, hmf⟩
  rw [stepC_iter_bStar n] at hmf
  exact (by decide : ¬ findMatches bStar = []) hmf

/-- Claim C9 (amended): the cascade loop terminates exactly when some iterate
of detect→remove→collapse within the fuel bound is match-free; this holds for
typical streams but not for all of them. -/
theorem C9_cascade_termination : ∀ fuel b s sc,
    (runCascade fuel b s sc).isSome = true ↔
      ∃ n, n ≤ fuel ∧ findMatches ((stepC^[n] (b, s)).1) = [] :=
  runCascade_isSome_iff

/-- Claim C10: after every collapse the whole 8×8 grid is occupied, and the
freshly initialized board is fully occupied as well, so idle boards never
expose a null-typed cell to swap validation. -/
theorem C10_full_occupancy :
    (∀ b s y x, y < 8 → x < 8 → (typeAt (collapseBoard b s).1 y x).isSome = true) ∧
    (∀ s fuel b y x, initBoard s fuel = some b → y < 8 → x < 8 →
      (typeAt b y x).isSome = true) :=
  ⟨fun b s y x hy hx => collapseBoard_full b s y x hy hx,
   fun _ _ _ _ _ h hy hx => initBoard_full h hy hx⟩

theorem C10_witness : (typeAt (collapseBoard emptyBoard cyc).1 5 5).isSome = true :=
  C10_full_occupancy.1 emptyBoard cyc 5 5 (by omega) (by omega)

theorem C9_witness : (runCascade 2 bW cyc 0).isSome = true ↔
    ∃ n, n ≤ 2 ∧ findMatches ((stepC^[n] (bW, cyc)).1) = [] :=
  C9_cascade_termination 2 bW cyc 0
